import Mathlib

/-!
Verification development for the market-breadth-analyzer data pipeline
(`src/services/api.ts`, `src/utils/formatters.ts` / `src/ai.ts`,
`src/App.tsx` merge logic).

The TypeScript source is shallowly embedded: JavaScript primitive values
are modelled by `JVal` (finite numbers as rationals, `NaN`, strings,
`null`, `undefined`; JS `Infinity` does not arise at the modelled call
sites and is not modelled).  Runtime parsing routines whose exact
behaviour lives outside the repository (`Number(string)`,
`parseFloat(string)`, `new Date(string).getTime()`,
`Date.toISOString`) are threaded through an environment record `JSEnv`;
theorems quantify over the environment, concrete instances only appear
in closed counterexamples / witnesses.  Fallible code (a JS `throw`) is
embedded with `Except Unit`.
-/

namespace MBA

/-- Model of a JavaScript primitive value.  `num` carries a finite
number as a rational; `nan` is `NaN`. -/
inductive JVal where
  | num (q : ℚ)
  | nan
  | str (s : String)
  | null
  | undef
deriving DecidableEq, Repr

/-- JS truthiness of a primitive value (`Boolean(x)`). -/
def jsTruthy : JVal → Bool
  | .num q => q ≠ 0
  | .nan => false
  | .str s => s ≠ ""
  | .null => false
  | .undef => false

/-- JS `a || b`: returns `a` when truthy, else `b`. -/
def jsOr (a b : JVal) : JVal := if jsTruthy a then a else b

/-- Environment of runtime functions external to the repository:
`strToNum` models `Number(s)` on strings (`none` = `NaN`),
`parseFloatFn` models `parseFloat(s)` (`none` = `NaN`),
`dateParse` models `new Date(s).getTime()` (`none` = `NaN`, i.e. an
invalid date), and `isoDate` models
`new Date(t).toISOString().split('T')[0]` on a valid time value. -/
structure JSEnv where
  strToNum : String → Option ℚ
  parseFloatFn : String → Option ℚ
  dateParse : String → Option ℚ
  isoDate : ℚ → String

/-- JS `Number(x)` conversion; always yields a number or `NaN`. -/
def jnum (env : JSEnv) : JVal → JVal
  | .num q => .num q
  | .nan => .nan
  | .str s =>
    match env.strToNum s with
    | some q => .num q
    | none => .nan
  | .null => .num 0
  | .undef => .nan

/-- JS multiplication at the modelled call sites, where both operands
are already numbers or `NaN` (other operands never reach `jmul`). -/
def jmul : JVal → JVal → JVal
  | .num a, .num b => .num (a * b)
  | _, _ => .nan

/-- JS division at the modelled call sites.  Every division in the
source is guarded by a `total > 0` test, so the divisor is a nonzero
number whenever the result is used (rational division by zero never
occurs behind the guard). -/
def jdiv : JVal → JVal → JVal
  | .num a, .num b => .num (a / b)
  | _, _ => .nan

/-- JS comparison `x < q` against a number literal: both sides are
coerced with `ToNumber`; any `NaN` makes the comparison false. -/
def jltB (env : JSEnv) (x : JVal) (q : ℚ) : Bool :=
  match jnum env x with
  | .num a => a < q
  | _ => false

/-- JS comparison `x > q` against a number literal (used by
`.filter(d => d.timestamp > 0)`). -/
def jgtB (env : JSEnv) (x : JVal) (q : ℚ) : Bool :=
  match jnum env x with
  | .num a => q < a
  | _ => false

/-- The second-to-millisecond normalization applied after a
`typeof timestamp === 'number'` test:
`if (typeof ts === 'number' && ts < 10000000000) ts *= 1000`.
`NaN` passes the `typeof` test but fails the comparison, so only finite
numbers are scaled. -/
def scaleTs : JVal → JVal
  | .num q => if q < 10000000000 then .num (q * 1000) else .num q
  | x => x

/-! ## Payload normalizer: `parseVNIndexData` (src/utils/formatters.ts) -/

/-- An element of an array-of-objects payload: each key the normalizer
probes, `undef` when absent (JSON-derived objects never hold a key with
value `undefined`, so absence and `undefined` coincide). -/
structure ObjRecord where
  date : JVal := .undef
  time : JVal := .undef
  t : JVal := .undef
  Date : JVal := .undef
  Time : JVal := .undef
  dt : JVal := .undef
  value : JVal := .undef
  close : JVal := .undef
  c : JVal := .undef
  Close : JVal := .undef
  Price : JVal := .undef
  price : JVal := .undef
  v : JVal := .undef
  adClose : JVal := .undef
  adjClose : JVal := .undef
deriving DecidableEq, Repr

/-- Output unit of the normalizer (`{ timestamp, close }`).  Both
fields keep the full `JVal` range because the source performs no
finiteness filtering. -/
structure RawPoint where
  timestamp : JVal
  close : JVal
deriving DecidableEq, Repr

/-- The payload shapes sniffed by `parseVNIndexData`:
a falsy payload, the `{data: [...]}` wrapper, array-of-arrays,
array-of-objects, the columnar `{t:[], c:[]}` shape, and any other
unrecognized value. -/
inductive VNPayload where
  | nullish
  | wrap (inner : VNPayload)
  | arrArr (rows : List (List JVal))
  | arrObj (rows : List ObjRecord)
  | columnar (tArr cArr : List JVal)
  | other
deriving DecidableEq

/-- `Array.isArray(data.data)` test used by the wrapper branch. -/
def isArrayShape : VNPayload → Bool
  | .arrArr _ => true
  | .arrObj _ => true
  | _ => false

/-- The timestamp probe of the array-of-objects branch:
`item.date || item.time || item.t || item.Date || item.Time || item.dt`. -/
def timeProbe (r : ObjRecord) : JVal :=
  jsOr r.date (jsOr r.time (jsOr r.t (jsOr r.Date (jsOr r.Time r.dt))))

/-- The value probe of the array-of-objects branch:
`item.value || item.close || item.c || item.Close || item.Price ||
item.price || item.v || item.adClose || item.adjClose`. -/
def closeProbe (r : ObjRecord) : JVal :=
  jsOr r.value (jsOr r.close (jsOr r.c (jsOr r.Close (jsOr r.Price
    (jsOr r.price (jsOr r.v (jsOr r.adClose r.adjClose)))))))

/-- String timestamps are parsed as dates, then the numeric scaling is
applied: `let ts = typeof time === 'string' ? new Date(time).getTime()
: time; if (typeof ts === 'number' && ts < 1e10) ts *= 1000`. -/
def objTimestamp (env : JSEnv) (time : JVal) : JVal :=
  scaleTs (match time with
    | .str s =>
      match env.dateParse s with
      | some q => .num q
      | none => .nan
    | x => x)

/-- `parseVNIndexData` (src/utils/formatters.ts): shape-sniffing
normalizer producing `{timestamp, close}` points. -/
def parseVNIndexData (env : JSEnv) : VNPayload → List RawPoint
  | .nullish => []
  | .wrap inner =>
    -- `if (data.data && Array.isArray(data.data)) return parse(data.data)`;
    -- a wrapper whose `data` is not an array matches no later branch
    -- (the wrapper itself is not an array and has no `t`/`c` arrays).
    if isArrayShape inner then parseVNIndexData env inner else []
  | .arrArr rows =>
    -- Scenario 1; an empty array instead falls into scenario 2 and
    -- still maps to the empty list.
    rows.map (fun item =>
      let timestamp := scaleTs (item.getD 0 .undef)
      let close := if 5 ≤ item.length then item.getD 4 .undef else item.getD 1 .undef
      ⟨timestamp, jnum env close⟩)
  | .arrObj rows =>
    -- Scenario 2: probe alternative keys, drop when either probe is
    -- `undefined`, emit `Number(close)` otherwise.
    rows.filterMap (fun item =>
      let time := timeProbe item
      let close := closeProbe item
      if time = .undef ∨ close = .undef then none
      else some ⟨objTimestamp env time, jnum env close⟩)
  | .columnar tArr cArr =>
    -- Scenario 3: zip `t` and `c` by index; the scaling test here has
    -- no `typeof` guard, so it coerces with ToNumber.
    tArr.mapIdx (fun i tv =>
      let timestamp :=
        if jltB env tv 10000000000 then jmul (jnum env tv) (.num 1000) else tv
      ⟨timestamp, jnum env (cArr.getD i .undef)⟩)
  | .other => []

/-- A value that is a (finite) number or `NaN` — i.e. the possible
results of a JS `Number(...)` conversion. -/
def isNumOrNaN (x : JVal) : Prop := x = .nan ∨ ∃ q, x = .num q

/-- A trivial concrete environment for closed counterexamples: every
string fails numeric and date parsing. -/
def envTriv : JSEnv :=
  { strToNum := fun _ => none
    parseFloatFn := fun _ => none
    dateParse := fun _ => none
    isoDate := fun _ => "" }

theorem jnum_isNumOrNaN (env : JSEnv) (x : JVal) : isNumOrNaN (jnum env x) := by
  cases x with
  | num q => exact Or.inr ⟨q, rfl⟩
  | nan => exact Or.inl rfl
  | str s =>
    cases h : env.strToNum s with
    | none => exact Or.inl (by simp [jnum, h])
    | some q => exact Or.inr ⟨q, by simp [jnum, h]⟩
  | null => exact Or.inr ⟨0, rfl⟩
  | undef => exact Or.inl rfl

/-- The array-of-objects branch equals a filter (both probes yield a
non-`undefined` value) followed by a pointwise build. -/
theorem arrObj_eq_filter_map (env : JSEnv) (rows : List ObjRecord) :
    parseVNIndexData env (.arrObj rows) =
      (rows.filter
        (fun r => decide (timeProbe r ≠ JVal.undef ∧ closeProbe r ≠ JVal.undef))).map
        (fun r => ⟨objTimestamp env (timeProbe r), jnum env (closeProbe r)⟩) := by
  induction rows with
  | nil => rfl
  | cons r rest ih =>
    by_cases h : timeProbe r = JVal.undef ∨ closeProbe r = JVal.undef
    · have h' : ¬ (timeProbe r ≠ JVal.undef ∧ closeProbe r ≠ JVal.undef) := by
        tauto
      simp only [parseVNIndexData, List.filterMap_cons, List.filter_cons] at *
      simp [h, h', ih]
    · have h' : timeProbe r ≠ JVal.undef ∧ closeProbe r ≠ JVal.undef := by
        tauto
      simp only [parseVNIndexData, List.filterMap_cons, List.filter_cons] at *
      simp [h, h', ih]

/-- Every close emitted by any branch of the normalizer is the result
of a `Number(...)` conversion, hence a number or `NaN`. -/
theorem parseVNIndexData_close_numOrNaN (env : JSEnv) (p : VNPayload)
    (pt : RawPoint) (hmem : pt ∈ parseVNIndexData env p) : isNumOrNaN pt.close := by
  induction p with
  | nullish => simp [parseVNIndexData] at hmem
  | wrap inner ih =>
    by_cases h : isArrayShape inner
    · rw [parseVNIndexData, if_pos h] at hmem
      exact ih hmem
    · rw [parseVNIndexData, if_neg h] at hmem
      simp at hmem
  | arrArr rows =>
    rw [parseVNIndexData] at hmem
    obtain ⟨item, -, rfl⟩ := List.mem_map.mp hmem
    exact jnum_isNumOrNaN env _
  | arrObj rows =>
    rw [arrObj_eq_filter_map] at hmem
    obtain ⟨r, -, rfl⟩ := List.mem_map.mp hmem
    exact jnum_isNumOrNaN env _
  | columnar tArr cArr =>
    rw [parseVNIndexData] at hmem
    obtain ⟨i, -, rfl⟩ := List.mem_mapIdx.mp hmem
    exact jnum_isNumOrNaN env _
  | other => simp [parseVNIndexData] at hmem

/-- Evaluation helper: a one-element array-of-arrays row with no close
entry yields a point with `close = Number(undefined) = NaN`. -/
theorem arrArr_nan_eval :
    parseVNIndexData envTriv (.arrArr [[JVal.num 20000000000]]) =
      [⟨JVal.num 20000000000, JVal.nan⟩] := by decide

/-- C2, counterexample.  The claim says a record whose value cannot be
parsed to a finite number is dropped and never emitted as `NaN`.  The
array-of-arrays input `[[20000000000]]` has no close entry at all
(`item[1]` is `undefined`), yet the normalizer emits the record with
`close = Number(undefined) = NaN` instead of dropping it. -/
theorem c2_counterexample :
    parseVNIndexData envTriv (.arrArr [[JVal.num 20000000000]]) =
      [⟨JVal.num 20000000000, JVal.nan⟩] ∧
    ¬ ((JVal.nan = JVal.nan → False) ∨ ∃ q, JVal.nan = JVal.num q) := by
  refine ⟨arrArr_nan_eval, ?_⟩
  rintro (h | ⟨q, h⟩)
  · exact h rfl
  · simp at h

/-- C2, amended.  Every emitted close is the `Number(...)` conversion
of the selected field — a number or `NaN`, never `undefined` — and in
the array-of-objects shape a record is dropped exactly when its
timestamp probe or its value probe yields `undefined`; records whose
fields fail numeric parsing are emitted with `NaN`, not dropped. -/
theorem c2_amended_normalizer_shape :
    (∀ (env : JSEnv) (p : VNPayload) (pt : RawPoint),
      pt ∈ parseVNIndexData env p → isNumOrNaN pt.close) ∧
    (∀ (env : JSEnv) (rows : List ObjRecord),
      (parseVNIndexData env (.arrObj rows)).length =
        (rows.filter
          (fun r => decide (timeProbe r ≠ JVal.undef ∧ closeProbe r ≠ JVal.undef))).length) := by
  refine ⟨parseVNIndexData_close_numOrNaN, fun env rows => ?_⟩
  rw [arrObj_eq_filter_map, List.length_map]

/-- Witness for `c2_amended_normalizer_shape`: the point emitted from
the concrete array-of-arrays payload above has a number-or-`NaN`
close. -/
theorem c2_amended_witness :
    isNumOrNaN (RawPoint.mk (JVal.num 20000000000) JVal.nan).close :=
  c2_amended_normalizer_shape.1 envTriv (.arrArr [[JVal.num 20000000000]])
    ⟨JVal.num 20000000000, JVal.nan⟩ (by rw [arrArr_nan_eval]; exact List.mem_singleton.mpr rfl)

/-- C3, counterexample.  The claim says the close is taken from the
first *present* key in the order `value, close, …` and that a present
value of `0` is kept.  On `{date: 10000000000, value: 0, close: 5}`
the `||` chain skips the present-but-falsy `value: 0` and returns `5`
from the `close` key, contradicting the claimed first-present-wins
rule (which would give `0`). -/
theorem c3_counterexample :
    parseVNIndexData envTriv
        (.arrObj [{ date := .num 10000000000, value := .num 0, close := .num 5 }]) =
      [⟨JVal.num 10000000000, JVal.num 5⟩] ∧
    (JVal.num 5 : JVal) ≠ JVal.num 0 := by
  constructor <;> decide

/-- C3, amended.  The array-of-objects branch selects the timestamp
and the close with JS `||` chains — the first key holding a *truthy*
value wins, falling back to the last key's value when every key is
falsy — and a record is dropped exactly when the selected timestamp or
the selected close is `undefined`.  In particular a record whose only
value field is `0` in a non-final key is dropped, not kept. -/
theorem c3_amended_arrObj_probe (env : JSEnv) (rows : List ObjRecord) :
    parseVNIndexData env (.arrObj rows) =
      (rows.filter
        (fun r => decide (timeProbe r ≠ JVal.undef ∧ closeProbe r ≠ JVal.undef))).map
        (fun r => ⟨objTimestamp env (timeProbe r), jnum env (closeProbe r)⟩) :=
  arrObj_eq_filter_map env rows

/-! ## Cache store (src/services/api.ts) -/

/-- `VNINDEX_TTL = 4 * 60 * 60 * 1000` (4 hours, in milliseconds). -/
def VNINDEX_TTL : ℤ := 4 * 60 * 60 * 1000

/-- `BREADTH_MIN_FRESH = 5 * 60 * 1000` (5 minutes, in milliseconds). -/
def BREADTH_MIN_FRESH : ℤ := 5 * 60 * 1000

/-- A cache entry as written by `saveToCache`:
`{ timestamp: Date.now(), data }`.  The payloads stored by this
repository are always arrays (`data: List α`), which are truthy in JS,
so the `!payload.data` corrupt-entry guard of `loadFromCache` never
fires on them and is not modelled separately. -/
structure CacheEntry (α : Type) where
  timestamp : ℤ
  data : List α
deriving DecidableEq, Repr

/-- `saveToCache`: overwrite the slot with `{timestamp: now, data}`
(the quota-exceeded branch merely logs, so a successful write is
modelled). -/
def saveToCache (now : ℤ) (data : List α) : Option (CacheEntry α) :=
  some ⟨now, data⟩

/-- `loadFromCache(key, ttl)`: absent slot loads as `null`; otherwise
`age = Date.now() - payload.timestamp`, and the entry is rejected
exactly when `ttl !== null && age > ttl`. -/
def loadFromCache (store : Option (CacheEntry α)) (now : ℤ) (ttl : Option ℤ) :
    Option (List α × ℤ) :=
  match store with
  | none => none
  | some e =>
    let age := now - e.timestamp
    match ttl with
    | some t => if t < age then none else some (e.data, age)
    | none => some (e.data, age)

/-- C7.  With a non-null TTL, a stored entry loads as absent exactly
when its age exceeds the TTL (an entry aged exactly the TTL is still
fresh), and with a null TTL the entry is returned with its age
regardless of how old it is. -/
theorem c7_loadFromCache_ttl_boundary (α : Type) (w now t : ℤ) (d : List α) :
    (loadFromCache (some ⟨w, d⟩) now (some t) = none ↔ t < now - w) ∧
    loadFromCache (some ⟨w, d⟩) (w + t) (some t) = some (d, t) ∧
    loadFromCache (some ⟨w, d⟩) now none = some (d, now - w) := by
  refine ⟨?_, ?_, rfl⟩
  · constructor
    · intro h
      by_contra hlt
      simp [loadFromCache, if_neg hlt] at h
    · intro h
      simp [loadFromCache, if_pos h]
  · show (if t < w + t - w then none else some (d, w + t - w)) = some (d, t)
    have harith : w + t - w = t := by omega
    rw [if_neg (by omega), harith]

/-! ## Index-series fetcher: `fetchVNIndexData` (src/services/api.ts) -/

/-- The `catch` branch of `fetchVNIndexData`: a stale cache read with
no TTL bound, else the empty list.  The cache slot is not modified. -/
def vnFallback (store : Option (CacheEntry RawPoint)) (now : ℤ) :
    List RawPoint × Option (CacheEntry RawPoint) :=
  match loadFromCache store now none with
  | some (d, _) => (d, store)
  | none => ([], store)

/-- `fetchVNIndexData`: fresh cache hit (TTL 4h) returns immediately;
otherwise the transport outcome `fetched` is consumed — a transport
error or a falsy payload (`if (!data) throw`) falls back to the stale
cache read; a parsed result is returned and cached only when
non-empty.  The function is total: it always yields a (possibly
empty) list, modelling "never raises to the caller". -/
def fetchVNIndexData (env : JSEnv) (store : Option (CacheEntry RawPoint)) (now : ℤ)
    (fetched : Except Unit VNPayload) :
    List RawPoint × Option (CacheEntry RawPoint) :=
  match loadFromCache store now (some VNINDEX_TTL) with
  | some (d, _) => (d, store)
  | none =>
    match fetched with
    | .error _ => vnFallback store now
    | .ok data =>
      if data = VNPayload.nullish then vnFallback store now
      else
        let parsed := parseVNIndexData env data
        (parsed, if parsed = [] then store else some ⟨now, parsed⟩)

/-- C8.  On any fetch failure (transport error, or the falsy-payload
exception), `fetchVNIndexData` resolves to the cached payload — read
with no TTL bound — when a cache entry exists, else to the empty list;
the cache slot is left unchanged.  (When the cache is fresh the cached
data is returned before the failing fetch is even consulted, which
coincides with the stale payload.)  Totality of the model embeds
"never raises: always resolves to a possibly empty list". -/
theorem c8_fetchVNIndexData_degrades (env : JSEnv)
    (store : Option (CacheEntry RawPoint)) (now : ℤ) (fetched : Except Unit VNPayload)
    (h : fetched = .error () ∨ fetched = .ok VNPayload.nullish) :
    (fetchVNIndexData env store now fetched).1 =
      (match store with | some e => e.data | none => []) ∧
    (fetchVNIndexData env store now fetched).2 = store := by
  have hfall : vnFallback store now =
      ((match store with | some e => e.data | none => []), store) := by
    cases store <;> rfl
  obtain rfl | rfl := h <;>
  · unfold fetchVNIndexData
    cases hload : loadFromCache store now (some VNINDEX_TTL) with
    | none => simp [hfall]
    | some pair =>
      cases store with
      | none => simp [loadFromCache] at hload
      | some e =>
        simp only [loadFromCache] at hload
        split at hload
        · exact absurd hload (by simp)
        · cases hload; exact ⟨rfl, rfl⟩

/-- Witness for `c8_fetchVNIndexData_degrades`: a stale entry (written
at 0, read far past the TTL) is served when the transport fails. -/
theorem c8_witness :
    (fetchVNIndexData envTriv (some ⟨0, [⟨JVal.num 1, JVal.num 2⟩]⟩)
        99999999999 (.error ())).1 = [⟨JVal.num 1, JVal.num 2⟩] :=
  (c8_fetchVNIndexData_degrades envTriv (some ⟨0, [⟨JVal.num 1, JVal.num 2⟩]⟩)
    99999999999 (.error ()) (Or.inl rfl)).1

/-! ## JS `Map` model: insertion-ordered association list

`Map.set` overwrites in place when the key exists, else appends;
`Map.values()` iterates in insertion order. -/

section MapModel

variable {κ ν : Type} [DecidableEq κ]

/-- `Map.has(k)`. -/
def mapHas (m : List (κ × ν)) (k : κ) : Bool := m.any (fun p => p.1 = k)

/-- `Map.set(k, v)`: replace in place when present, else append. -/
def mapSet (m : List (κ × ν)) (k : κ) (v : ν) : List (κ × ν) :=
  if mapHas m k then m.map (fun p => if p.1 = k then (k, v) else p) else m ++ [(k, v)]

/-- `Map.get(k)`. -/
def mapGet (m : List (κ × ν)) (k : κ) : Option ν :=
  (m.find? (fun p => p.1 = k)).map (fun p => p.2)

/-- `Array.from(map.values())`. -/
def mapValues (m : List (κ × ν)) : List ν := m.map (fun p => p.2)

theorem mapHas_eq_false_iff (m : List (κ × ν)) (k : κ) :
    mapHas m k = false ↔ ∀ e ∈ m, e.1 ≠ k := by
  simp [mapHas]

theorem mapSet_of_fresh (m : List (κ × ν)) (k : κ) (v : ν)
    (h : mapHas m k = false) : mapSet m k v = m ++ [(k, v)] := by
  simp [mapSet, h]

theorem find?_overwrite (m : List (κ × ν)) (k : κ) (v : ν) (h : mapHas m k = true) :
    List.find? (fun p => p.1 = k) (m.map (fun p => if p.1 = k then (k, v) else p)) =
      some (k, v) := by
  induction m with
  | nil => simp [mapHas] at h
  | cons a t ih =>
    by_cases ha : a.1 = k
    · simp [List.find?_cons, ha]
    · have ht : mapHas t k = true := by
        simp only [mapHas, List.any_cons, Bool.or_eq_true, decide_eq_true_eq] at h
        rcases h with h | h
        · exact absurd h ha
        · simpa [mapHas] using h
      simp only [List.map_cons, if_neg ha, List.find?_cons, decide_eq_false ha]
      exact ih ht

theorem find?_overwrite_ne (m : List (κ × ν)) (k k' : κ) (v : ν) (h : k' ≠ k) :
    List.find? (fun p => p.1 = k') (m.map (fun p => if p.1 = k then (k, v) else p)) =
      List.find? (fun p => p.1 = k') m := by
  induction m with
  | nil => rfl
  | cons a t ih =>
    by_cases ha : a.1 = k
    · have h1 : ¬ (k = k') := fun hc => h hc.symm
      have h2 : ¬ (a.1 = k') := fun hc => h (hc.symm.trans ha)
      simp only [List.map_cons, if_pos ha, List.find?_cons,
        decide_eq_false h1, decide_eq_false h2]
      exact ih
    · simp only [List.map_cons, if_neg ha, List.find?_cons]
      by_cases ha' : a.1 = k'
      · simp only [decide_eq_true ha']
      · simp only [decide_eq_false ha']
        exact ih

theorem find?_eq_none_of_not_has (m : List (κ × ν)) (k : κ) (h : mapHas m k = false) :
    List.find? (fun p => p.1 = k) m = none := by
  rw [List.find?_eq_none]
  intro e hm hc
  have ht : mapHas m k = true := by
    simp only [mapHas, List.any_eq_true]
    exact ⟨e, hm, hc⟩
  rw [h] at ht
  exact Bool.false_ne_true ht

theorem mapGet_mapSet_self (m : List (κ × ν)) (k : κ) (v : ν) :
    mapGet (mapSet m k v) k = some v := by
  rw [mapSet]
  split
  · next h =>
    rw [mapGet, find?_overwrite m k v h]
    rfl
  · next h =>
    rw [mapGet, List.find?_append,
      find?_eq_none_of_not_has m k (Bool.not_eq_true _ ▸ h)]
    simp [List.find?_cons]

theorem mapGet_mapSet_ne (m : List (κ × ν)) (k k' : κ) (v : ν) (h : k' ≠ k) :
    mapGet (mapSet m k v) k' = mapGet m k' := by
  rw [mapSet]
  split
  · rw [mapGet, mapGet, find?_overwrite_ne m k k' v h]
  · rw [mapGet, mapGet, List.find?_append]
    have hz : List.find? (fun p => p.1 = k') [(k, v)] = none := by
      have hkk : ¬ ((k, v).1 = k') := fun hc => h hc.symm
      simp [List.find?_cons, decide_eq_false hkk]
    cases hf : m.find? (fun p => p.1 = k') <;> simp [hf, hz]

theorem mem_mapSet (m : List (κ × ν)) (k : κ) (v : ν) (e : κ × ν)
    (h : e ∈ mapSet m k v) : e ∈ m ∨ e = (k, v) := by
  rw [mapSet] at h
  split at h
  · obtain ⟨a, ha, hae⟩ := List.mem_map.mp h
    by_cases hk : a.1 = k
    · right; rw [← hae, if_pos hk]
    · left; rwa [← hae, if_neg hk]
  · rcases List.mem_append.mp h with h' | h'
    · exact Or.inl h'
    · exact Or.inr (List.mem_singleton.mp h')

end MapModel

/-! ## JS stable sort with a numeric comparator

`array.sort((a, b) => a.timestamp - b.timestamp)`: per the ECMAScript
`SortCompare`, a comparator result of `NaN` is treated as `0`; for a
consistent comparator the result is the unique stable sorted
permutation, which stable insertion sort computes. -/

/-- Stable ordered insertion (insert after earlier ties). -/
def orderedIns (le : α → α → Bool) (a : α) : List α → List α
  | [] => [a]
  | b :: l => if le a b then a :: b :: l else b :: orderedIns le a l

/-- Stable insertion sort. -/
def jsSort (le : α → α → Bool) (l : List α) : List α := l.foldr (orderedIns le) []

theorem orderedIns_perm (le : α → α → Bool) (a : α) (l : List α) :
    (orderedIns le a l).Perm (a :: l) := by
  induction l with
  | nil => exact List.Perm.refl _
  | cons b t ih =>
    rw [orderedIns]
    split
    · exact List.Perm.refl _
    · exact ((ih.cons b).trans (List.Perm.swap a b t))

theorem jsSort_perm (le : α → α → Bool) (l : List α) : (jsSort le l).Perm l := by
  induction l with
  | nil => exact List.Perm.refl _
  | cons a t ih => exact (orderedIns_perm le a (jsSort le t)).trans (ih.cons a)

theorem mem_orderedIns (le : α → α → Bool) (a x : α) (l : List α) :
    x ∈ orderedIns le a l ↔ x = a ∨ x ∈ l := by
  rw [(orderedIns_perm le a l).mem_iff]
  exact List.mem_cons

theorem orderedIns_pairwise (le : α → α → Bool) (P : α → Prop)
    (htot : ∀ x y, P x → P y → le x y = true ∨ le y x = true)
    (htrans : ∀ x y z, P x → P y → P z → le x y = true → le y z = true → le x z = true)
    (a : α) (l : List α) (ha : P a) (hl : ∀ x ∈ l, P x)
    (hp : List.Pairwise (fun x y => le x y = true) l) :
    List.Pairwise (fun x y => le x y = true) (orderedIns le a l) := by
  induction l with
  | nil => simp [orderedIns]
  | cons b t ih =>
    rw [orderedIns]
    rcases List.pairwise_cons.mp hp with ⟨hb, ht⟩
    have hbP : P b := hl b (List.mem_cons_self b t)
    have htP : ∀ x ∈ t, P x := fun x hx => hl x (List.mem_cons_of_mem b hx)
    split
    · next hab =>
      refine List.pairwise_cons.mpr ⟨?_, hp⟩
      intro y hy
      rcases List.mem_cons.mp hy with rfl | hyt
      · exact hab
      · exact htrans a b y ha hbP (htP y hyt) hab (hb y hyt)
    · next hab =>
      have hba : le b a = true := by
        rcases htot a b ha hbP with h | h
        · exact absurd h hab
        · exact h
      refine List.pairwise_cons.mpr ⟨?_, ih htP ht⟩
      intro y hy
      rcases (mem_orderedIns le a y t).mp hy with rfl | hyt
      · exact hba
      · exact hb y hyt

theorem jsSort_pairwise (le : α → α → Bool) (P : α → Prop)
    (htot : ∀ x y, P x → P y → le x y = true ∨ le y x = true)
    (htrans : ∀ x y z, P x → P y → P z → le x y = true → le y z = true → le x z = true)
    (l : List α) (hl : ∀ x ∈ l, P x) :
    List.Pairwise (fun x y => le x y = true) (jsSort le l) := by
  induction l with
  | nil => simp [jsSort]
  | cons a t ih =>
    show List.Pairwise _ (orderedIns le a (jsSort le t))
    have htP : ∀ x ∈ t, P x := fun x hx => hl x (List.mem_cons_of_mem a hx)
    exact orderedIns_pairwise le P htot htrans a (jsSort le t)
      (hl a (List.mem_cons_self a t))
      (fun x hx => htP x ((jsSort_perm le t).mem_iff.mp hx))
      (ih htP)

/-! ## Breadth mappers and fetcher (src/services/api.ts) -/

/-- JS `a ?? b` (nullish coalescing): `b` only for `null`/`undefined`. -/
def jsCoalesce (a b : JVal) : JVal :=
  match a with
  | .null => b
  | .undef => b
  | x => x

/-- `x > 0` in the modelled guards (`total > 0`). -/
def isPos : JVal → Bool
  | .num q => 0 < q
  | _ => false

/-- `Math.max` at its call site, where both operands are numbers or
`NaN` (`NaN` is absorbing). -/
def jmax : JVal → JVal → JVal
  | .num a, .num b => .num (max a b)
  | _, _ => .nan

/-- `parseFloat(x)`: numbers pass through (stringify-then-parse is the
identity on them), strings go to the environment parser, anything else
stringifies to an unparsable word and gives `NaN`. -/
def jparseFloat (env : JSEnv) : JVal → JVal
  | .num q => .num q
  | .str s =>
    match env.parseFloatFn s with
    | some q => .num q
    | none => .nan
  | _ => .nan

/-- The time value of `new Date(x)` for a non-string argument is
`ToNumber(x)` clipped to the representable range (±8.64e15), `NaN`
outside it; strings are parsed as dates. -/
def dateTimeValue (env : JSEnv) : JVal → JVal
  | .num q => if |q| ≤ 8640000000000000 then .num q else .nan
  | .nan => .nan
  | .str s =>
    match env.dateParse s with
    | some q => .num q
    | none => .nan
  | .null => .num 0
  | .undef => .nan

/-- An element of a flat breadth payload.  Every key probed by
`mapBreadthData` is a field (`undef` = absent); the
`BreadthDataPoint`-shaped fields (`timestamp`, `count*`) are included
because a payload whose first element carries an `ma20` key is passed
through unchanged. -/
structure RawBItem where
  date : JVal := .undef
  Date : JVal := .undef
  time : JVal := .undef
  t : JVal := .undef
  timestamp : JVal := .undef
  total : JVal := .undef
  ma20 : JVal := .undef
  ma50 : JVal := .undef
  ma200 : JVal := .undef
  avg_ma20 : JVal := .undef
  avg_ma50 : JVal := .undef
  avg_ma200 : JVal := .undef
  pct_ma20 : JVal := .undef
  pct_ma50 : JVal := .undef
  pct_ma200 : JVal := .undef
  count20 : JVal := .undef
  count50 : JVal := .undef
  count200 : JVal := .undef
deriving DecidableEq, Repr

/-- A `BreadthDataPoint` as it flows through the pipeline.  All fields
keep the `JVal` range because raw items can be passed through
unconverted. -/
structure BPoint where
  date : JVal
  timestamp : JVal
  total : JVal
  count20 : JVal
  count50 : JVal
  count200 : JVal
  ma20 : JVal
  ma50 : JVal
  ma200 : JVal
deriving DecidableEq, Repr

/-- The identity coercion applied when a raw flat item is returned
as-is (`raw` already contains `ma20`): the same object, viewed as a
`BreadthDataPoint`. -/
def toBPoint (r : RawBItem) : BPoint :=
  { date := r.date, timestamp := r.timestamp, total := r.total,
    count20 := r.count20, count50 := r.count50, count200 := r.count200,
    ma20 := r.ma20, ma50 := r.ma50, ma200 := r.ma200 }

/-- `total > 0 ? (c / total) * 100 : 0` — the percentage computation
shared by `mapBreadthData` and `mapComplexBreadthData`. -/
def calcPct (total c : JVal) : JVal :=
  if isPos total then jmul (jdiv c total) (.num 100) else .num 0

/-- `const rawDate = item.date || item.Date || item.time || item.t`. -/
def bRawDate (item : RawBItem) : JVal :=
  jsOr item.date (jsOr item.Date (jsOr item.time item.t))

/-- `let timestamp = typeof rawDate === 'string' ?
new Date(rawDate).getTime() : rawDate` followed by the numeric
second-to-millisecond scaling. -/
def bTs (env : JSEnv) (item : RawBItem) : JVal :=
  scaleTs (match bRawDate item with
    | .str s =>
      match env.dateParse s with
      | some q => .num q
      | none => .nan
    | x => x)

/-- `Number(item.total || 0)`. -/
def bTotal (env : JSEnv) (item : RawBItem) : JVal :=
  jnum env (jsOr item.total (.num 0))

/-- `Number(item.ma20 ?? item.avg_ma20 ?? item.pct_ma20 ?? 0)`. -/
def bC20 (env : JSEnv) (item : RawBItem) : JVal :=
  jnum env (jsCoalesce item.ma20 (jsCoalesce item.avg_ma20
    (jsCoalesce item.pct_ma20 (.num 0))))

/-- `Number(item.ma50 ?? item.avg_ma50 ?? item.pct_ma50 ?? 0)`. -/
def bC50 (env : JSEnv) (item : RawBItem) : JVal :=
  jnum env (jsCoalesce item.ma50 (jsCoalesce item.avg_ma50
    (jsCoalesce item.pct_ma50 (.num 0))))

/-- `Number(item.ma200 ?? item.avg_ma200 ?? item.pct_ma200 ?? 0)`. -/
def bC200 (env : JSEnv) (item : RawBItem) : JVal :=
  jnum env (jsCoalesce item.ma200 (jsCoalesce item.avg_ma200
    (jsCoalesce item.pct_ma200 (.num 0))))

/-- One iteration of the `mapBreadthData` callback.
`new Date(timestamp).toISOString()` throws (`Except.error`) when the
time value is `NaN` — a missing or unparsable date is NOT filtered, it
aborts the whole mapper. -/
def buildBItem (env : JSEnv) (item : RawBItem) : Except Unit BPoint :=
  match dateTimeValue env (bTs env item) with
  | .num q =>
    .ok { date := .str (env.isoDate q), timestamp := bTs env item,
          total := bTotal env item,
          count20 := bC20 env item, count50 := bC50 env item, count200 := bC200 env item,
          ma20 := calcPct (bTotal env item) (bC20 env item),
          ma50 := calcPct (bTotal env item) (bC50 env item),
          ma200 := calcPct (bTotal env item) (bC200 env item) }
  | _ => .error ()

/-- `mapBreadthData`: map each raw item (possibly throwing), then keep
only points with `timestamp > 0`. -/
def mapBreadthData (env : JSEnv) (rows : List RawBItem) : Except Unit (List BPoint) := do
  let pts ← rows.mapM (buildBItem env)
  pure (pts.filter (fun d => jgtB env d.timestamp 0))

/-- An element of one sub-series of the complex breadth shape
(`{date, value, total}`); the date, used as a `Map` key, is a
string in this payload. -/
structure CSeriesItem where
  date : String
  value : JVal := .undef
  total : JVal := .undef
deriving DecidableEq, Repr

/-- The complex breadth shape: up to three sub-series arrays keyed
`ma20`/`ma50`/`ma200` (`none` = the key is not an array). -/
structure ComplexObj where
  ma20 : Option (List CSeriesItem) := none
  ma50 : Option (List CSeriesItem) := none
  ma200 : Option (List CSeriesItem) := none
deriving DecidableEq, Repr

/-- The per-date accumulator of `mapComplexBreadthData`
(`{ date, total: 0 }` then mutated). -/
structure CEntry where
  date : String
  total : JVal
  count20 : Option JVal := none
  count50 : Option JVal := none
  count200 : Option JVal := none
deriving DecidableEq, Repr

/-- `{ date, total: 0 }` as first inserted. -/
def freshCEntry (d : String) : CEntry := { date := d, total := .num 0 }

/-- One iteration of `mergeSeries`'s `forEach` body. -/
def mergeSeriesStep (env : JSEnv) (setCount : CEntry → JVal → CEntry)
    (m : List (String × CEntry)) (item : CSeriesItem) : List (String × CEntry) :=
  let m1 := if mapHas m item.date then m else mapSet m item.date (freshCEntry item.date)
  let entry := (mapGet m1 item.date).getD (freshCEntry item.date)
  let entry1 :=
    if jsTruthy item.total then
      { entry with total := jmax entry.total (jnum env item.total) }
    else entry
  mapSet m1 item.date (setCount entry1 (jparseFloat env item.value))

/-- `mergeSeries(key, countProp)`: fold the sub-series (when it is an
array) into the date-keyed map. -/
def mergeSeries (env : JSEnv) (setCount : CEntry → JVal → CEntry)
    (arr : Option (List CSeriesItem)) (m : List (String × CEntry)) :
    List (String × CEntry) :=
  match arr with
  | none => m
  | some items => items.foldl (mergeSeriesStep env setCount) m

/-- The merged date-keyed map built by the three `mergeSeries` calls. -/
def complexMerged (env : JSEnv) (obj : ComplexObj) : List (String × CEntry) :=
  mergeSeries env (fun e v => { e with count200 := some v }) obj.ma200
    (mergeSeries env (fun e v => { e with count50 := some v }) obj.ma50
      (mergeSeries env (fun e v => { e with count20 := some v }) obj.ma20 []))

/-- The final per-date record of `mapComplexBreadthData`:
`const t = item.total || 0; ... isNaN(ts) ? 0 : ts; count_k = item.count_k || 0;
ma_k = calc(item.count_k || 0)`. -/
def complexPoint (env : JSEnv) (item : CEntry) : BPoint :=
  { date := .str item.date,
    timestamp := .num ((env.dateParse item.date).getD 0),
    total := jsOr item.total (.num 0),
    count20 := jsOr (item.count20.getD .undef) (.num 0),
    count50 := jsOr (item.count50.getD .undef) (.num 0),
    count200 := jsOr (item.count200.getD .undef) (.num 0),
    ma20 := calcPct (jsOr item.total (.num 0)) (jsOr (item.count20.getD .undef) (.num 0)),
    ma50 := calcPct (jsOr item.total (.num 0)) (jsOr (item.count50.getD .undef) (.num 0)),
    ma200 := calcPct (jsOr item.total (.num 0)) (jsOr (item.count200.getD .undef) (.num 0)) }

/-- `mapComplexBreadthData`: pivot the three sub-series into one record
per date; a date that fails to parse becomes `timestamp = 0` and the
record is kept. -/
def mapComplexBreadthData (env : JSEnv) (obj : ComplexObj) : List BPoint :=
  (mapValues (complexMerged env obj)).map (complexPoint env)

/-- The payload shapes `processRaw` distinguishes: a falsy payload, a
`{data: <non-array object>}` complex wrapper, a top-level array, a
`{data: [...]}` array wrapper, and any other truthy value (whose
`data.data || []` path yields the empty list). -/
inductive BreadthPayload where
  | nullish
  | complexWrap (obj : ComplexObj)
  | flatArr (rows : List RawBItem)
  | wrapArr (rows : List RawBItem)
  | otherObj
deriving DecidableEq

/-- `raw.length > 0 && 'ma20' in raw[0] ? raw : mapBreadthData(raw)`:
pass a flat array through unchanged when its first element carries an
`ma20` key (for JSON-derived objects, key presence = field not
`undefined`), else map it. -/
def passOrMap (env : JSEnv) (rows : List RawBItem) : Except Unit (List BPoint) :=
  match rows with
  | [] => mapBreadthData env []
  | r :: rest =>
    if r.ma20 ≠ JVal.undef then .ok ((r :: rest).map toBPoint)
    else mapBreadthData env (r :: rest)

/-- `processRaw` inside `fetchBreadthData`.  The complex branch's
output always carries an `ma20` key, so it is never re-mapped. -/
def processRaw (env : JSEnv) : BreadthPayload → Except Unit (List BPoint)
  | .nullish => .ok []
  | .complexWrap obj => .ok (mapComplexBreadthData env obj)
  | .flatArr rows => passOrMap env rows
  | .wrapArr rows => passOrMap env rows
  | .otherObj => .ok []

/-- The breadth sort comparator `(a, b) => a.timestamp - b.timestamp`
as a "sorts before or ties" test: the subtraction coerces both
timestamps with `ToNumber`, its value is nonpositive exactly when
`x ≤ y`, and a `NaN` comparator value is treated as `0` (a tie) per
the ECMAScript `SortCompare`. -/
def jsCompLe (env : JSEnv) (a b : BPoint) : Bool :=
  match jnum env a.timestamp, jnum env b.timestamp with
  | .num x, .num y => x ≤ y
  | _, _ => true

/-- `pts.forEach(p => mergedMap.set(p.timestamp, p))`. -/
def insertAll (m : List (JVal × BPoint)) (pts : List BPoint) : List (JVal × BPoint) :=
  pts.foldl (fun acc p => mapSet acc p.timestamp p) m

/-- The `mergedMap` of `fetchBreadthData` after its three insertion
phases: cached points first (only when history was not refetched and
the cache was valid), then history points (only when history was
refetched), then latest points. -/
def mergeMap (cachedData historyPoints latestPoints : List BPoint)
    (shouldFetchHistory isCacheValid : Bool) : List (JVal × BPoint) :=
  insertAll
    (if shouldFetchHistory then
      insertAll (if !shouldFetchHistory && isCacheValid then insertAll [] cachedData else [])
        historyPoints
    else
      (if !shouldFetchHistory && isCacheValid then insertAll [] cachedData else []))
    latestPoints

/-- The merge step of `fetchBreadthData`: the merged map's values
sorted ascending by timestamp. -/
def mergeBreadth (env : JSEnv) (cachedData historyPoints latestPoints : List BPoint)
    (shouldFetchHistory isCacheValid : Bool) : List BPoint :=
  jsSort (jsCompLe env)
    (mapValues (mergeMap cachedData historyPoints latestPoints shouldFetchHistory isCacheValid))

/-- `fetchBreadthData`: state-passing model.  Besides the returned
points it yields the updated cache slot and a flag recording whether
any network request was issued (the fresh-cache early return issues
none).  A rejected fetch promise is replaced by `[]` by the attached
`.catch(() => [])`, so transport failures surface as empty point
lists; the `catch` branch of the function body (reached when a mapper
throws) returns the cached data when the cache was valid, else the
empty list. -/
def fetchBreadthData (env : JSEnv) (store : Option (CacheEntry BPoint)) (now : ℤ)
    (latestFetch historyFetch : Except Unit BreadthPayload) :
    List BPoint × Option (CacheEntry BPoint) × Bool :=
  let cachedResult := loadFromCache store now none
  let isCacheValid : Bool :=
    match cachedResult with
    | some (d, _) => !d.isEmpty
    | none => false
  let cachedData : List BPoint :=
    match cachedResult with
    | some (d, _) => if d.isEmpty then [] else d
    | none => []
  let cacheAge : ℤ :=
    match cachedResult with
    | some (d, a) => if d.isEmpty then 999999999 else a
    | none => 999999999
  if isCacheValid && decide (cacheAge < BREADTH_MIN_FRESH) then
    (cachedData, store, false)
  else
    let latestRaw := match latestFetch with | .ok p => p | .error _ => .flatArr []
    let shouldFetchHistory : Bool := !isCacheValid || decide (cachedData.length < 50)
    let historyRaw :=
      if shouldFetchHistory then
        match historyFetch with | .ok p => p | .error _ => .flatArr []
      else .flatArr []
    match processRaw env latestRaw, processRaw env historyRaw with
    | .ok latestPoints, .ok historyPoints =>
      let finalResult := mergeBreadth env cachedData historyPoints latestPoints
        shouldFetchHistory isCacheValid
      if finalResult.isEmpty then (finalResult, store, true)
      else (finalResult, saveToCache now finalResult, true)
    | _, _ => (if isCacheValid then cachedData else [], store, true)

/-! ## Supporting lemmas about the merge map -/

/-- A point whose timestamp is a (finite) number. -/
def numTs (p : BPoint) : Prop := ∃ x : ℚ, p.timestamp = .num x

/-- The last point of `pts` whose timestamp is `k` — the survivor of
repeated `Map.set` on one key. -/
def lastHit (pts : List BPoint) (k : JVal) : Option BPoint :=
  pts.foldl (fun acc p => if p.timestamp = k then some p else acc) none

theorem foldl_lastHit (pts : List BPoint) (k : JVal) (acc : Option BPoint) :
    pts.foldl (fun a p => if p.timestamp = k then some p else a) acc =
      match lastHit pts k with
      | some p => some p
      | none => acc := by
  induction pts generalizing acc with
  | nil => rfl
  | cons p rest ih =>
    show rest.foldl _ (if p.timestamp = k then some p else acc) = _
    rw [ih]
    have hph : lastHit (p :: rest) k =
        rest.foldl (fun a p => if p.timestamp = k then some p else a)
          (if p.timestamp = k then some p else none) := rfl
    rw [hph, ih]
    cases lastHit rest k with
    | some p' => rfl
    | none => by_cases hp : p.timestamp = k <;> simp [hp]

theorem lastHit_cons (p : BPoint) (rest : List BPoint) (k : JVal) :
    lastHit (p :: rest) k =
      match lastHit rest k with
      | some p' => some p'
      | none => if p.timestamp = k then some p else none := by
  show rest.foldl _ (if p.timestamp = k then some p else none) = _
  rw [foldl_lastHit]

theorem lastHit_mem (pts : List BPoint) (k : JVal) (p : BPoint)
    (h : lastHit pts k = some p) : p ∈ pts ∧ p.timestamp = k := by
  induction pts with
  | nil => cases h
  | cons q rest ih =>
    rw [lastHit_cons] at h
    cases hr : lastHit rest k with
    | some p' =>
      rw [hr] at h
      cases h
      obtain ⟨hm, hk⟩ := ih hr
      exact ⟨List.mem_cons_of_mem q hm, hk⟩
    | none =>
      rw [hr] at h
      by_cases hq : q.timestamp = k
      · rw [if_pos hq] at h
        injection h with h'
        subst h'
        exact ⟨List.mem_cons_self _ _, hq⟩
      · rw [if_neg hq] at h
        cases h

theorem lastHit_isSome (pts : List BPoint) (k : JVal)
    (h : ∃ p ∈ pts, p.timestamp = k) : ∃ p, lastHit pts k = some p := by
  induction pts with
  | nil => simp at h
  | cons q rest ih =>
    rw [lastHit_cons]
    cases hr : lastHit rest k with
    | some p' => exact ⟨p', rfl⟩
    | none =>
      obtain ⟨p, hp, hk⟩ := h
      rcases List.mem_cons.mp hp with heq | hp'
      · subst heq
        exact ⟨p, by rw [if_pos hk]⟩
      · obtain ⟨p'', hp''⟩ := ih ⟨p, hp', hk⟩
        rw [hp''] at hr
        cases hr

theorem mapGet_insertAll (m : List (JVal × BPoint)) (pts : List BPoint) (k : JVal) :
    mapGet (insertAll m pts) k =
      match lastHit pts k with
      | some p => some p
      | none => mapGet m k := by
  induction pts generalizing m with
  | nil => rfl
  | cons p rest ih =>
    show mapGet (insertAll (mapSet m p.timestamp p) rest) k = _
    rw [ih, lastHit_cons]
    cases lastHit rest k with
    | some p' => rfl
    | none =>
      by_cases hp : p.timestamp = k
      · rw [if_pos hp, ← hp]
        exact mapGet_mapSet_self m p.timestamp p
      · rw [if_neg hp]
        exact mapGet_mapSet_ne m p.timestamp k p (fun hc => hp hc.symm)

theorem mem_insertAll (m : List (JVal × BPoint)) (pts : List BPoint) (e : JVal × BPoint)
    (h : e ∈ insertAll m pts) : e ∈ m ∨ ∃ p ∈ pts, e = (p.timestamp, p) := by
  induction pts generalizing m with
  | nil => exact Or.inl h
  | cons p rest ih =>
    rcases ih (mapSet m p.timestamp p) h with h' | ⟨p', hp', rfl⟩
    · rcases mem_mapSet _ _ _ _ h' with h'' | rfl
      · exact Or.inl h''
      · exact Or.inr ⟨p, List.mem_cons_self p rest, rfl⟩
    · exact Or.inr ⟨p', List.mem_cons_of_mem p hp', rfl⟩

theorem keys_mapSet_nodup {κ ν : Type} [DecidableEq κ] (m : List (κ × ν)) (k : κ) (v : ν)
    (h : (m.map Prod.fst).Nodup) : ((mapSet m k v).map Prod.fst).Nodup := by
  rw [mapSet]
  split
  · have heq : (m.map (fun p => if p.1 = k then (k, v) else p)).map Prod.fst =
        m.map Prod.fst := by
      rw [List.map_map]
      apply List.map_congr_left
      intro p _
      by_cases hpk : p.1 = k
      · simp [Function.comp, hpk]
      · simp [Function.comp, hpk]
    rw [heq]
    exact h
  · next hhas =>
    rw [List.map_append]
    refine List.Nodup.append h (List.nodup_singleton k) ?_
    intro x hx hx'
    obtain ⟨e, he, rfl⟩ := List.mem_map.mp hx
    have hxk : e.1 = k := List.mem_singleton.mp hx'
    have hhk : mapHas m k = true := by
      simp only [mapHas, List.any_eq_true]
      exact ⟨e, he, by simpa using hxk⟩
    exact hhas hhk

theorem insertAll_keys_nodup (m : List (JVal × BPoint)) (pts : List BPoint)
    (h : (m.map Prod.fst).Nodup) : ((insertAll m pts).map Prod.fst).Nodup := by
  induction pts generalizing m with
  | nil => exact h
  | cons p rest ih => exact ih _ (keys_mapSet_nodup m p.timestamp p h)

/-- Every entry of the breadth merge map has its point's timestamp as
its key. -/
def mapWF (m : List (JVal × BPoint)) : Prop := ∀ e ∈ m, e.1 = e.2.timestamp

theorem mapWF_insertAll (m : List (JVal × BPoint)) (pts : List BPoint)
    (h : mapWF m) : mapWF (insertAll m pts) := by
  intro e he
  rcases mem_insertAll _ _ _ he with h' | ⟨p, _, rfl⟩
  · exact h e h'
  · rfl

theorem eq_of_mem_nodupKeys {κ ν : Type} (m : List (κ × ν))
    (h : (m.map Prod.fst).Nodup) (k : κ) (a b : ν)
    (ha : (k, a) ∈ m) (hb : (k, b) ∈ m) : a = b := by
  induction m with
  | nil => cases ha
  | cons e rest ih =>
    rw [List.map_cons, List.nodup_cons] at h
    rcases List.mem_cons.mp ha with rfl | ha' <;>
      rcases List.mem_cons.mp hb with heb | hb'
    · injection heb with h1 h2
      exact h2.symm
    · exact absurd (List.mem_map.mpr ⟨(k, b), hb', rfl⟩) h.1
    · rw [← heb] at h
      exact absurd (List.mem_map.mpr ⟨(k, a), ha', rfl⟩) h.1
    · exact ih h.2 ha' hb'

theorem mem_of_mapGet {κ ν : Type} [DecidableEq κ] (m : List (κ × ν)) (k : κ) (v : ν)
    (h : mapGet m k = some v) : (k, v) ∈ m := by
  rw [mapGet] at h
  cases hf : m.find? (fun p => p.1 = k) with
  | none => rw [hf] at h; cases h
  | some e =>
    rw [hf] at h
    have he := List.mem_of_find?_eq_some hf
    have hk : e.1 = k := by simpa using List.find?_some hf
    cases h
    obtain ⟨e1, e2⟩ := e
    cases hk
    exact he

theorem insertAll_of_fresh (m : List (JVal × BPoint)) (pts : List BPoint)
    (hm : ∀ p ∈ pts, mapHas m p.timestamp = false)
    (hnodup : (pts.map BPoint.timestamp).Nodup) :
    insertAll m pts = m ++ pts.map (fun p => (p.timestamp, p)) := by
  induction pts generalizing m with
  | nil => simp [insertAll]
  | cons p rest ih =>
    show insertAll (mapSet m p.timestamp p) rest = _
    rw [mapSet_of_fresh m p.timestamp p (hm p (List.mem_cons_self p rest))]
    rw [List.map_cons, List.nodup_cons] at hnodup
    rw [ih (m ++ [(p.timestamp, p)]) ?_ hnodup.2]
    · simp [List.append_assoc]
    · intro r hr
      rw [mapHas_eq_false_iff]
      intro e he
      rcases List.mem_append.mp he with he' | he''
      · exact (mapHas_eq_false_iff m r.timestamp).mp (hm r (List.mem_cons_of_mem p hr)) e he'
      · rw [List.mem_singleton.mp he'']
        intro hc
        exact hnodup.1 (List.mem_map.mpr ⟨r, hr, hc.symm⟩)

theorem jsCompLe_total (env : JSEnv) (a b : BPoint) (ha : numTs a) (hb : numTs b) :
    jsCompLe env a b = true ∨ jsCompLe env b a = true := by
  obtain ⟨x, hx⟩ := ha
  obtain ⟨y, hy⟩ := hb
  rw [jsCompLe, jsCompLe, hx, hy]
  show (decide (x ≤ y)) = true ∨ (decide (y ≤ x)) = true
  rcases le_total x y with h | h
  · exact Or.inl (decide_eq_true h)
  · exact Or.inr (decide_eq_true h)

theorem jsCompLe_trans (env : JSEnv) (a b c : BPoint)
    (ha : numTs a) (hb : numTs b) (hc : numTs c)
    (hab : jsCompLe env a b = true) (hbc : jsCompLe env b c = true) :
    jsCompLe env a c = true := by
  obtain ⟨x, hx⟩ := ha
  obtain ⟨y, hy⟩ := hb
  obtain ⟨z, hz⟩ := hc
  rw [jsCompLe, hx, hy] at hab
  rw [jsCompLe, hy, hz] at hbc
  rw [jsCompLe, hx, hz]
  exact decide_eq_true (le_trans (of_decide_eq_true hab) (of_decide_eq_true hbc))

/-! ## C1 / C10: the breadth percentage invariant and timestamps -/

/-- `(c / t) * 100 = (100 * c) / t` in JS arithmetic (the two sides
are `NaN` together when `c` is not a number). -/
theorem jmul_jdiv_comm (c : JVal) (t : ℚ) :
    jmul (jdiv c (.num t)) (.num 100) = jdiv (jmul (.num 100) c) (.num t) := by
  cases c with
  | num a =>
    simp only [jmul, jdiv, JVal.num.injEq]
    ring
  | nan => rfl
  | str s => rfl
  | null => rfl
  | undef => rfl

/-- The claimed breadth invariant at one point:
`ma_k = 100 * count_k / total` when `total > 0`, `ma_k = 0` when
`total = 0`, in JS arithmetic over the point's own fields. -/
def maInvariant (p : BPoint) : Prop :=
  ∀ tq : ℚ, p.total = .num tq →
    (0 < tq →
      p.ma20 = jdiv (jmul (.num 100) p.count20) (.num tq) ∧
      p.ma50 = jdiv (jmul (.num 100) p.count50) (.num tq) ∧
      p.ma200 = jdiv (jmul (.num 100) p.count200) (.num tq)) ∧
    (tq = 0 →
      p.ma20 = .num 0 ∧ p.ma50 = .num 0 ∧ p.ma200 = .num 0)

theorem calcPct_pos (c : JVal) (tq : ℚ) (h : 0 < tq) :
    calcPct (.num tq) c = jdiv (jmul (.num 100) c) (.num tq) := by
  rw [calcPct, if_pos (by simpa [isPos] using h), jmul_jdiv_comm]

theorem calcPct_nonpos (c : JVal) (tq : ℚ) (h : ¬ 0 < tq) :
    calcPct (.num tq) c = .num 0 := by
  rw [calcPct, if_neg (by simpa [isPos] using h)]

theorem buildBItem_maInvariant (env : JSEnv) (item : RawBItem) (p : BPoint)
    (h : buildBItem env item = .ok p) : maInvariant p := by
  unfold buildBItem at h
  split at h
  · injection h with h'
    subst h'
    intro tq htq
    have htq' : bTotal env item = .num tq := htq
    constructor
    · intro hpos
      refine ⟨?_, ?_, ?_⟩
      · show calcPct (bTotal env item) (bC20 env item) = _
        rw [htq']
        exact calcPct_pos _ tq hpos
      · show calcPct (bTotal env item) (bC50 env item) = _
        rw [htq']
        exact calcPct_pos _ tq hpos
      · show calcPct (bTotal env item) (bC200 env item) = _
        rw [htq']
        exact calcPct_pos _ tq hpos
    · intro hz
      subst hz
      refine ⟨?_, ?_, ?_⟩
      · show calcPct (bTotal env item) (bC20 env item) = JVal.num 0
        rw [htq']
        exact calcPct_nonpos _ 0 (lt_irrefl 0)
      · show calcPct (bTotal env item) (bC50 env item) = JVal.num 0
        rw [htq']
        exact calcPct_nonpos _ 0 (lt_irrefl 0)
      · show calcPct (bTotal env item) (bC200 env item) = JVal.num 0
        rw [htq']
        exact calcPct_nonpos _ 0 (lt_irrefl 0)
  · cases h

theorem complexPoint_maInvariant (env : JSEnv) (item : CEntry) :
    maInvariant (complexPoint env item) := by
  intro tq htq
  have htq' : jsOr item.total (.num 0) = .num tq := htq
  constructor
  · intro hpos
    refine ⟨?_, ?_, ?_⟩
    · show calcPct (jsOr item.total (.num 0)) (jsOr (item.count20.getD .undef) (.num 0)) = _
      rw [htq']
      exact calcPct_pos _ tq hpos
    · show calcPct (jsOr item.total (.num 0)) (jsOr (item.count50.getD .undef) (.num 0)) = _
      rw [htq']
      exact calcPct_pos _ tq hpos
    · show calcPct (jsOr item.total (.num 0)) (jsOr (item.count200.getD .undef) (.num 0)) = _
      rw [htq']
      exact calcPct_pos _ tq hpos
  · intro hz
    subst hz
    refine ⟨?_, ?_, ?_⟩
    · show calcPct (jsOr item.total (.num 0)) (jsOr (item.count20.getD .undef) (.num 0)) = JVal.num 0
      rw [htq']
      exact calcPct_nonpos _ 0 (lt_irrefl 0)
    · show calcPct (jsOr item.total (.num 0)) (jsOr (item.count50.getD .undef) (.num 0)) = JVal.num 0
      rw [htq']
      exact calcPct_nonpos _ 0 (lt_irrefl 0)
    · show calcPct (jsOr item.total (.num 0)) (jsOr (item.count200.getD .undef) (.num 0)) = JVal.num 0
      rw [htq']
      exact calcPct_nonpos _ 0 (lt_irrefl 0)

/-- Extract the per-element equation from a successful `mapM`. -/
theorem mapM_mem_ok {α β : Type} (f : α → Except Unit β) (l : List α) (out : List β)
    (h : l.mapM f = .ok out) (b : β) (hb : b ∈ out) : ∃ a ∈ l, f a = .ok b := by
  induction l generalizing out with
  | nil =>
    rw [List.mapM_nil] at h
    injection h with h'
    subst h'
    cases hb
  | cons a t ih =>
    rw [List.mapM_cons] at h
    cases hfa : f a with
    | error e =>
      rw [hfa] at h
      simp only [bind, Except.bind] at h
      cases h
    | ok b0 =>
      rw [hfa] at h
      cases hft : t.mapM f with
      | error e =>
        rw [hft] at h
        simp only [bind, Except.bind, pure, Except.pure] at h
        cases h
      | ok bs =>
        rw [hft] at h
        simp only [bind, Except.bind, pure, Except.pure] at h
        injection h with h'
        subst h'
        rcases List.mem_cons.mp hb with rfl | hb'
        · exact ⟨a, List.mem_cons_self a t, hfa⟩
        · obtain ⟨a', ha', hfa'⟩ := ih bs hft hb'
          exact ⟨a', List.mem_cons_of_mem a ha', hfa'⟩

/-- Successful `mapBreadthData` output is the filtered `mapM` output. -/
theorem mapBreadthData_ok (env : JSEnv) (rows : List RawBItem) (l : List BPoint)
    (h : mapBreadthData env rows = .ok l) :
    ∃ pts, rows.mapM (buildBItem env) = .ok pts ∧
      l = pts.filter (fun d => jgtB env d.timestamp 0) := by
  rw [mapBreadthData] at h
  cases hm : rows.mapM (buildBItem env) with
  | error e =>
    rw [hm] at h
    simp only [bind, Except.bind] at h
    cases h
  | ok pts =>
    rw [hm] at h
    simp only [bind, Except.bind, pure, Except.pure] at h
    injection h with h'
    exact ⟨pts, rfl, h'.symm⟩

/-- The flat-payload item of the C1 counterexample: it already carries
an `ma20` key, so `processRaw` passes it through unchanged. -/
def c1Item : RawBItem :=
  { date := .str "2024-01-02", timestamp := .num 20000000000, total := .num 100,
    count20 := .num 5, count50 := .num 5, count200 := .num 5,
    ma20 := .num 40, ma50 := .num 40, ma200 := .num 40 }

/-- C1, counterexample.  A first fetch (no cache) whose "latest" query
returns a flat array already containing an `ma20` key is passed
through `processRaw` unchanged, so `fetchBreadthData` returns a point
with `total = 100`, `count20 = 5` but `ma20 = 40 ≠ 100 * 5 / 100`:
the claimed invariant does not hold on the pass-through path. -/
theorem c1_counterexample :
    (fetchBreadthData envTriv none 0 (.ok (.flatArr [c1Item])) (.error ())).1 =
      [toBPoint c1Item] ∧
    ¬ maInvariant (toBPoint c1Item) := by
  refine ⟨by decide, ?_⟩
  intro hinv
  have h40 : (toBPoint c1Item).ma20 =
      jdiv (jmul (.num 100) (toBPoint c1Item).count20) (.num 100) :=
    ((hinv 100 rfl).1 (by norm_num)).1
  have h40' : (JVal.num 40 : JVal) = .num (100 * 5 / 100) := h40
  rw [JVal.num.injEq] at h40'
  norm_num at h40'

/-- C1, amended.  The invariant `ma_k = 100 * count_k / total` when
`total > 0` and `ma_k = 0` when `total = 0` holds for every point
produced by `mapBreadthData` (flat payloads without an `ma20` key) and
by `mapComplexBreadthData` (complex payloads); a flat payload that
already carries an `ma20` key is passed through unchanged and need not
satisfy it. -/
theorem c1_amended_ma_formula :
    (∀ (env : JSEnv) (rows : List RawBItem) (l : List BPoint),
      mapBreadthData env rows = .ok l → ∀ p ∈ l, maInvariant p) ∧
    (∀ (env : JSEnv) (obj : ComplexObj), ∀ p ∈ mapComplexBreadthData env obj,
      maInvariant p) := by
  constructor
  · intro env rows l h p hp
    obtain ⟨pts, hm, rfl⟩ := mapBreadthData_ok env rows l h
    obtain ⟨item, -, hitem⟩ := mapM_mem_ok (buildBItem env) rows pts hm p
      (List.mem_of_mem_filter hp)
    exact buildBItem_maInvariant env item p hitem
  · intro env obj p hp
    obtain ⟨item, -, rfl⟩ := List.mem_map.mp hp
    exact complexPoint_maInvariant env item

/-- The flat item used by the C1/C10 witnesses: a numeric date, no
totals — mapped (not passed through) because it has no `ma20` key. -/
def zeroTotalItem : RawBItem := { date := .num 20000000000 }

/-- The point `mapBreadthData` produces from `zeroTotalItem`. -/
def zeroPt : BPoint :=
  { date := .str "", timestamp := .num 20000000000, total := .num 0,
    count20 := .num 0, count50 := .num 0, count200 := .num 0,
    ma20 := .num 0, ma50 := .num 0, ma200 := .num 0 }

theorem mapB_zeroTotal_eval :
    mapBreadthData envTriv [zeroTotalItem] = .ok [zeroPt] := rfl

/-- Witness for `c1_amended_ma_formula`: the invariant holds at the
concrete mapped point `zeroPt` (`total = 0`, all `ma_k = 0`). -/
theorem c1_amended_witness : maInvariant zeroPt :=
  c1_amended_ma_formula.1 envTriv [zeroTotalItem] [zeroPt] mapB_zeroTotal_eval
    zeroPt (List.mem_singleton.mpr rfl)

/-- C10, counterexample.  The claim says records whose date is missing
or fails to parse are filtered out of `mapBreadthData`'s output; in
fact an unparsable date makes `new Date(NaN).toISOString()` throw, so
the whole mapper aborts instead of filtering the record. -/
theorem c10_counterexample :
    mapBreadthData envTriv [{ date := .str "not-a-date" }] = .error () ∧
    ∀ l : List BPoint, mapBreadthData envTriv [{ date := .str "not-a-date" }] ≠ .ok l := by
  have heval : mapBreadthData envTriv [{ date := .str "not-a-date" }] = .error () := rfl
  refine ⟨heval, ?_⟩
  intro l hl
  rw [heval] at hl
  cases hl

theorem scaleTs_not_str (x : JVal) (hx : ∀ s', x ≠ .str s') (s : String) :
    scaleTs x ≠ .str s := by
  cases x with
  | num q =>
    simp only [scaleTs]
    split <;> simp
  | nan => simp [scaleTs]
  | str s' => exact absurd rfl (hx s')
  | null => simp [scaleTs]
  | undef => simp [scaleTs]

theorem bTs_not_str (env : JSEnv) (item : RawBItem) (s : String) :
    bTs env item ≠ .str s := by
  rw [bTs]
  apply scaleTs_not_str
  intro s''
  cases hrd : bRawDate item with
  | str s' => cases hdp : env.dateParse s' <;> simp [hdp]
  | num q => simp
  | nan => simp
  | null => simp
  | undef => simp

theorem jgtB_pos_cases (env : JSEnv) (x : JVal) (hx : ∀ s, x ≠ .str s)
    (h : jgtB env x 0 = true) : ∃ q : ℚ, 0 < q ∧ x = .num q := by
  cases x with
  | num q =>
    refine ⟨q, ?_, rfl⟩
    simpa [jgtB, jnum] using h
  | nan => simp [jgtB, jnum] at h
  | str s => exact absurd rfl (hx s)
  | null => simp [jgtB, jnum] at h
  | undef => simp [jgtB, jnum] at h

/-- C10, amended.  Every point `mapBreadthData` returns does have a
strictly positive numeric timestamp (non-positive ones are filtered
out), but a record whose date is missing or unparsable is not
filtered: it makes the mapper throw.  `mapComplexBreadthData` never
drops a merged record, and a record whose date fails to parse keeps
timestamp `0`. -/
theorem c10_amended_timestamp_behavior :
    (∀ (env : JSEnv) (rows : List RawBItem) (l : List BPoint),
      mapBreadthData env rows = .ok l →
      ∀ p ∈ l, ∃ q : ℚ, 0 < q ∧ p.timestamp = .num q) ∧
    (∀ (env : JSEnv) (obj : ComplexObj),
      (mapComplexBreadthData env obj).length = (complexMerged env obj).length) ∧
    (∀ (env : JSEnv) (obj : ComplexObj) (p : BPoint),
      p ∈ mapComplexBreadthData env obj →
      ∀ s, p.date = .str s → env.dateParse s = none → p.timestamp = .num 0) := by
  refine ⟨?_, ?_, ?_⟩
  · intro env rows l h p hp
    obtain ⟨pts, hm, rfl⟩ := mapBreadthData_ok env rows l h
    have hgt : jgtB env p.timestamp 0 = true := by
      have := List.of_mem_filter hp
      simpa using this
    obtain ⟨item, -, hitem⟩ := mapM_mem_ok (buildBItem env) rows pts hm p
      (List.mem_of_mem_filter hp)
    have hts : p.timestamp = bTs env item := by
      unfold buildBItem at hitem
      split at hitem
      · injection hitem with h'
        subst h'
        rfl
      · cases hitem
    refine jgtB_pos_cases env p.timestamp ?_ hgt
    intro s
    rw [hts]
    exact bTs_not_str env item s
  · intro env obj
    rw [mapComplexBreadthData, List.length_map, mapValues, List.length_map]
  · intro env obj p hp s hdate hparse
    obtain ⟨item, -, rfl⟩ := List.mem_map.mp hp
    have hs : item.date = s := by
      have : (JVal.str item.date : JVal) = .str s := hdate
      injection this
    show (JVal.num ((env.dateParse item.date).getD 0) : JVal) = .num 0
    rw [hs, hparse]
    rfl

/-- Witness for `c10_amended_timestamp_behavior`: the concrete mapped
point `zeroPt` has a strictly positive numeric timestamp. -/
theorem c10_amended_witness : ∃ q : ℚ, 0 < q ∧ zeroPt.timestamp = .num q :=
  c10_amended_timestamp_behavior.1 envTriv [zeroTotalItem] [zeroPt]
    mapB_zeroTotal_eval zeroPt (List.mem_singleton.mpr rfl)

/-! ## C4: latest-wins merge and ascending order -/

theorem mergeMap_keys_nodup (c h l : List BPoint) (sFH iCV : Bool) :
    ((mergeMap c h l sFH iCV).map Prod.fst).Nodup := by
  rw [mergeMap]
  apply insertAll_keys_nodup
  split
  · apply insertAll_keys_nodup
    split
    · exact insertAll_keys_nodup [] c (by simp)
    · simp
  · split
    · exact insertAll_keys_nodup [] c (by simp)
    · simp

theorem mergeMap_wf (c h l : List BPoint) (sFH iCV : Bool) :
    mapWF (mergeMap c h l sFH iCV) := by
  rw [mergeMap]
  apply mapWF_insertAll
  split
  · apply mapWF_insertAll
    split
    · exact mapWF_insertAll [] c (fun e he => absurd he (List.not_mem_nil e))
    · exact fun e he => absurd he (List.not_mem_nil e)
  · split
    · exact mapWF_insertAll [] c (fun e he => absurd he (List.not_mem_nil e))
    · exact fun e he => absurd he (List.not_mem_nil e)

theorem mergeMap_value_mem (c h l : List BPoint) (sFH iCV : Bool) (e : JVal × BPoint)
    (he : e ∈ mergeMap c h l sFH iCV) : e.2 ∈ c ∨ e.2 ∈ h ∨ e.2 ∈ l := by
  rw [mergeMap] at he
  rcases mem_insertAll _ _ _ he with he2 | ⟨p, hp, rfl⟩
  · have hc1 : ∀ e' : JVal × BPoint,
        e' ∈ (if !sFH && iCV then insertAll [] c else []) → e'.2 ∈ c := by
      intro e' he'
      split at he'
      · rcases mem_insertAll _ _ _ he' with h0 | ⟨p, hp, rfl⟩
        · exact absurd h0 (List.not_mem_nil e')
        · exact hp
      · exact absurd he' (List.not_mem_nil e')
    split at he2
    · rcases mem_insertAll _ _ _ he2 with he1 | ⟨p, hp, rfl⟩
      · exact Or.inl (hc1 e he1)
      · exact Or.inr (Or.inl hp)
    · exact Or.inl (hc1 e he2)
  · exact Or.inr (Or.inr hp)

/-- C4.  When the breadth merge runs — cached points inserted first
(only when history was not refetched), then history points, then
latest points, keyed by timestamp — every timestamp supplied by the
"latest" fetch is retained from "latest" (in particular it shadows any
history or cached point with the same timestamp), the retained point
being the last "latest" point with that timestamp and the only output
point with that timestamp; and the output is sorted ascending by
timestamp. -/
theorem c4_merge_latest_wins_sorted (env : JSEnv)
    (cached history latest : List BPoint) (sFH iCV : Bool) (q : JVal)
    (hnum : ∀ p ∈ cached ++ history ++ latest, numTs p)
    (hq : ∃ p ∈ latest, p.timestamp = q) :
    (∃ p', p' ∈ latest ∧ p'.timestamp = q ∧ lastHit latest q = some p' ∧
      p' ∈ mergeBreadth env cached history latest sFH iCV ∧
      ∀ r ∈ mergeBreadth env cached history latest sFH iCV, r.timestamp = q → r = p') ∧
    List.Pairwise (fun a b => jsCompLe env a b = true)
      (mergeBreadth env cached history latest sFH iCV) := by
  have hperm := jsSort_perm (jsCompLe env)
    (mapValues (mergeMap cached history latest sFH iCV))
  have hvalnum : ∀ p ∈ mapValues (mergeMap cached history latest sFH iCV), numTs p := by
    intro p hp
    obtain ⟨e, he, rfl⟩ := List.mem_map.mp hp
    rcases mergeMap_value_mem cached history latest sFH iCV e he with h' | h' | h' <;>
      exact hnum _ (by simp [h'])
  constructor
  · obtain ⟨p', hlast⟩ := lastHit_isSome latest q hq
    obtain ⟨hp'mem, hp'ts⟩ := lastHit_mem latest q p' hlast
    have hget : mapGet (mergeMap cached history latest sFH iCV) q = some p' := by
      rw [mergeMap, mapGet_insertAll, hlast]
    have hentry : (q, p') ∈ mergeMap cached history latest sFH iCV :=
      mem_of_mapGet _ q p' hget
    have hvals : p' ∈ mapValues (mergeMap cached history latest sFH iCV) :=
      List.mem_map.mpr ⟨(q, p'), hentry, rfl⟩
    refine ⟨p', hp'mem, hp'ts, hlast, hperm.mem_iff.mpr hvals, ?_⟩
    intro r hr hrts
    have hrvals : r ∈ mapValues (mergeMap cached history latest sFH iCV) :=
      hperm.mem_iff.mp hr
    obtain ⟨e, he, he2⟩ := List.mem_map.mp hrvals
    have hkey : e.1 = q := by
      rw [mergeMap_wf cached history latest sFH iCV e he, he2, hrts]
    have hentry' : (q, r) ∈ mergeMap cached history latest sFH iCV := by
      have : e = (q, r) := by
        obtain ⟨e1, e2⟩ := e
        simp only at hkey he2
        rw [hkey, he2]
      rwa [this] at he
    exact eq_of_mem_nodupKeys _ (mergeMap_keys_nodup cached history latest sFH iCV)
      q r p' hentry' hentry
  · exact jsSort_pairwise (jsCompLe env) numTs (jsCompLe_total env) (jsCompLe_trans env)
      _ hvalnum

/-- Two-point lists exercising `c4_merge_latest_wins_sorted`: history
and latest disagree on timestamp `1`. -/
def histPt : BPoint :=
  { date := .str "a", timestamp := .num 1, total := .num 10,
    count20 := .num 1, count50 := .num 1, count200 := .num 1,
    ma20 := .num 10, ma50 := .num 10, ma200 := .num 10 }

/-- The revised same-day point supplied by the "latest" fetch. -/
def latestPt : BPoint :=
  { date := .str "a", timestamp := .num 1, total := .num 10,
    count20 := .num 2, count50 := .num 2, count200 := .num 2,
    ma20 := .num 20, ma50 := .num 20, ma200 := .num 20 }

/-- Witness for `c4_merge_latest_wins_sorted`: with history `[histPt]`
and latest `[latestPt]` sharing timestamp `1`, the merge retains
`latestPt`. -/
theorem c4_witness :
    ∃ p', p' ∈ [latestPt] ∧ p'.timestamp = .num 1 ∧
      lastHit [latestPt] (.num 1) = some p' ∧
      p' ∈ mergeBreadth envTriv [] [histPt] [latestPt] true false ∧
      ∀ r ∈ mergeBreadth envTriv [] [histPt] [latestPt] true false,
        r.timestamp = .num 1 → r = p' :=
  (c4_merge_latest_wins_sorted envTriv [] [histPt] [latestPt] true false (.num 1)
    (by
      intro p hp
      rcases List.mem_append.mp hp with h | h
      · rcases List.mem_append.mp h with h' | h'
        · exact absurd h' (List.not_mem_nil p)
        · rw [List.mem_singleton.mp h']
          exact ⟨1, rfl⟩
      · rw [List.mem_singleton.mp h]
        exact ⟨1, rfl⟩)
    ⟨latestPt, List.mem_singleton.mpr rfl, rfl⟩).1

/-! ## C9: total-failure cycle re-freshes the stale cache -/

/-- C9.  With a cached entry of at least 50 points whose age is at
least the 5-minute fresh window, and a cycle in which every network
request fails (the "latest" fetch rejects and is caught to `[]`;
history is not even requested because the cache is long enough),
`fetchBreadthData` returns exactly the cached points sorted ascending
by timestamp and rewrites them to the cache with written-at `now` —
so any immediately following call (age under 5 minutes) returns the
same points with no network request (`false` flag). -/
theorem c9_stale_cache_refresh (env : JSEnv) (w now : ℤ) (d : List BPoint)
    (hist f' g' : Except Unit BreadthPayload)
    (hlen : 50 ≤ d.length)
    (hstale : BREADTH_MIN_FRESH ≤ now - w)
    (hnum : ∀ p ∈ d, numTs p)
    (hnodup : (d.map BPoint.timestamp).Nodup) :
    ∃ res : List BPoint,
      fetchBreadthData env (some ⟨w, d⟩) now (.error ()) hist =
        (res, some ⟨now, res⟩, true) ∧
      res.Perm d ∧
      List.Pairwise (fun a b => jsCompLe env a b = true) res ∧
      ∀ now' : ℤ, now' - now < BREADTH_MIN_FRESH →
        fetchBreadthData env (some ⟨now, res⟩) now' f' g' =
          (res, some ⟨now, res⟩, false) := by
  have hdne : d ≠ [] := by
    intro h0
    rw [h0] at hlen
    simp at hlen
  have hde : d.isEmpty = false := by
    cases d with
    | nil => exact absurd rfl hdne
    | cons a t => rfl
  have hresperm : (jsSort (jsCompLe env) d).Perm d := jsSort_perm _ _
  have hsorted : List.Pairwise (fun a b => jsCompLe env a b = true)
      (jsSort (jsCompLe env) d) :=
    jsSort_pairwise _ numTs (jsCompLe_total env) (jsCompLe_trans env) d hnum
  have hresne : jsSort (jsCompLe env) d ≠ [] := by
    intro h0
    have hlen0 := hresperm.length_eq
    rw [h0] at hlen0
    simp only [List.length_nil] at hlen0
    omega
  have hrese : (jsSort (jsCompLe env) d).isEmpty = false := by
    cases hres2 : jsSort (jsCompLe env) d with
    | nil => exact absurd hres2 hresne
    | cons a t => rfl
  have hmv : mapValues (mergeMap d [] [] false true) = d := by
    have h1 : mergeMap d [] [] false true = insertAll [] d := rfl
    rw [h1, insertAll_of_fresh [] d (fun p _ => rfl) hnodup]
    show List.map (fun p => p.2) ([] ++ List.map (fun p => (p.timestamp, p)) d) = d
    rw [List.nil_append, List.map_map]
    have hcomp : ((fun p : JVal × BPoint => p.2) ∘ fun p : BPoint => (p.timestamp, p)) =
        fun p => p := rfl
    rw [hcomp]
    exact List.map_id' d
  have hmerge : mergeBreadth env d [] [] false true = jsSort (jsCompLe env) d := by
    rw [mergeBreadth, hmv]
  have hpr : processRaw env (.flatArr []) = .ok [] := rfl
  have hc1 : (decide (now - w < BREADTH_MIN_FRESH)) = false :=
    decide_eq_false (not_lt.mpr hstale)
  have hc2 : (decide (d.length < 50)) = false := decide_eq_false (not_lt.mpr hlen)
  refine ⟨jsSort (jsCompLe env) d, ?_, hresperm, hsorted, ?_⟩
  · simp only [fetchBreadthData, loadFromCache, hde, hc1, hc2, hpr, hmerge, hrese,
      Bool.not_false, Bool.not_true, Bool.true_and, Bool.and_false, Bool.false_or,
      Bool.or_false, Bool.false_and, if_false, if_true, Bool.false_eq_true,
      Bool.true_eq_false, saveToCache]
  · intro now' hfresh
    have hcf : (decide (now' - now < BREADTH_MIN_FRESH)) = true := decide_eq_true hfresh
    simp only [fetchBreadthData, loadFromCache, hrese, hcf,
      Bool.not_false, Bool.true_and, if_true, Bool.false_eq_true, if_false]

/-- A 50-point cached series with distinct numeric timestamps. -/
def demoCachePts : List BPoint :=
  (List.range 50).map (fun i : ℕ =>
    { date := .str "", timestamp := .num i, total := .num 0,
      count20 := .num 0, count50 := .num 0, count200 := .num 0,
      ma20 := .num 0, ma50 := .num 0, ma200 := .num 0 })

/-- Witness for `c9_stale_cache_refresh`: a 50-point cache written at
0 and read at `now = 300000` (exactly the fresh window) with all
fetches failing. -/
theorem c9_witness :
    ∃ res : List BPoint,
      fetchBreadthData envTriv (some ⟨0, demoCachePts⟩) 300000 (.error ()) (.error ()) =
        (res, some ⟨300000, res⟩, true) ∧
      res.Perm demoCachePts ∧
      List.Pairwise (fun a b => jsCompLe envTriv a b = true) res ∧
      ∀ now' : ℤ, now' - 300000 < BREADTH_MIN_FRESH →
        fetchBreadthData envTriv (some ⟨300000, res⟩) now' (.error ()) (.error ()) =
          (res, some ⟨300000, res⟩, false) :=
  c9_stale_cache_refresh envTriv 0 300000 demoCachePts (.error ()) (.error ()) (.error ())
    (by rw [demoCachePts, List.length_map, List.length_range])
    (by decide)
    (by
      intro p hp
      obtain ⟨i, -, rfl⟩ := List.mem_map.mp hp
      exact ⟨i, rfl⟩)
    (by
      rw [demoCachePts, List.map_map]
      have hcomp : (BPoint.timestamp ∘ fun i : ℕ =>
          ({ date := .str "", timestamp := .num i, total := .num 0,
             count20 := .num 0, count50 := .num 0, count200 := .num 0,
             ma20 := .num 0, ma50 := .num 0, ma200 := .num 0 } : BPoint)) =
          fun i : ℕ => JVal.num i := rfl
      rw [hcomp]
      refine List.Nodup.map ?_ (List.nodup_range 50)
      intro a b hab
      simp only [JVal.num.injEq] at hab
      exact_mod_cast hab)

/-! ## C5: the chartData merge engine (src/App.tsx `useMemo`)

The per-day record map is keyed by the date string
`getDateKey(ts) = new Date(ts).toISOString().split('T')[0]`; the date
key and display formatting are modelled as total function parameters
`dk`/`fmt` (an input whose timestamp makes `toISOString` throw aborts
the whole memo and produces no merged data at all, which these claims
do not concern).  The source mutates map entries in place through the
reference returned by `getOrCreate`; the model re-inserts the updated
record at the same key, which is observably identical. -/

/-- A `ChartDataPoint` of the merge: optional fields are `undefined`
until a source supplies them. -/
structure ChartDataPoint where
  date : JVal
  timestamp : JVal
  formattedDate : String
  vnIndex : Option JVal
  capVal : Option JVal
  sectorVal : Option JVal
  total : Option JVal
  count20 : Option JVal
  count50 : Option JVal
  count200 : Option JVal
  ma20 : Option JVal
  ma50 : Option JVal
  ma200 : Option JVal
deriving DecidableEq, Repr

/-- The record `getOrCreate` inserts for a fresh day:
`{date: key, timestamp: ts, formattedDate: formatDate(ts),
vnIndex: undefined, capVal: undefined, sectorVal: undefined}`. -/
def freshCDP (fmt : JVal → String) (ts : JVal) (key : String) : ChartDataPoint :=
  { date := .str key, timestamp := ts, formattedDate := fmt ts,
    vnIndex := none, capVal := none, sectorVal := none,
    total := none, count20 := none, count50 := none, count200 := none,
    ma20 := none, ma50 := none, ma200 := none }

/-- `Object.assign(item, b)`: every own property of the breadth point
overwrites the record's (including `date` and `timestamp`); fields `b`
does not have (`formattedDate`, `vnIndex`, `capVal`, `sectorVal`) are
untouched. -/
def assignBreadth (cdp : ChartDataPoint) (b : BPoint) : ChartDataPoint :=
  { cdp with
    date := b.date
    timestamp := b.timestamp
    total := some b.total
    count20 := some b.count20
    count50 := some b.count50
    count200 := some b.count200
    ma20 := some b.ma20
    ma50 := some b.ma50
    ma200 := some b.ma200 }

/-- The map after `getOrCreate(ts, key)`'s conditional insertion. -/
def gocMap (fmt : JVal → String) (m : List (String × ChartDataPoint))
    (ts : JVal) (key : String) : List (String × ChartDataPoint) :=
  if mapHas m key then m else mapSet m key (freshCDP fmt ts key)

/-- The record `getOrCreate(ts, key)` returns. -/
def gocItem (fmt : JVal → String) (m : List (String × ChartDataPoint))
    (ts : JVal) (key : String) : ChartDataPoint :=
  (mapGet (gocMap fmt m ts key) key).getD (freshCDP fmt ts key)

/-- One iteration of the breadth `forEach`:
`Object.assign(getOrCreate(b.timestamp, getDateKey(b.timestamp)), b)`. -/
def breadthPassStep (dk fmt : JVal → String)
    (m : List (String × ChartDataPoint)) (b : BPoint) : List (String × ChartDataPoint) :=
  mapSet (gocMap fmt m b.timestamp (dk b.timestamp)) (dk b.timestamp)
    (assignBreadth (gocItem fmt m b.timestamp (dk b.timestamp)) b)

/-- The breadth merge pass. -/
def breadthPass (dk fmt : JVal → String) (bs : List BPoint)
    (m : List (String × ChartDataPoint)) : List (String × ChartDataPoint) :=
  bs.foldl (breadthPassStep dk fmt) m

/-- One iteration of an index-series `forEach`: `getOrCreate`, then
write the series' field only when `v.close !== null && v.close !==
undefined` (a close of `0` is written as `0`). -/
def indexPassStep (dk fmt : JVal → String) (setF : ChartDataPoint → JVal → ChartDataPoint)
    (m : List (String × ChartDataPoint)) (v : RawPoint) : List (String × ChartDataPoint) :=
  if v.close ≠ JVal.null ∧ v.close ≠ JVal.undef then
    mapSet (gocMap fmt m v.timestamp (dk v.timestamp)) (dk v.timestamp)
      (setF (gocItem fmt m v.timestamp (dk v.timestamp)) v.close)
  else gocMap fmt m v.timestamp (dk v.timestamp)

/-- An index-series merge pass. -/
def indexPass (dk fmt : JVal → String) (setF : ChartDataPoint → JVal → ChartDataPoint)
    (vs : List RawPoint) (m : List (String × ChartDataPoint)) :
    List (String × ChartDataPoint) :=
  vs.foldl (indexPassStep dk fmt setF) m

/-- `item.vnIndex = v.close`. -/
def setVnIndex (c : ChartDataPoint) (x : JVal) : ChartDataPoint := { c with vnIndex := some x }

/-- `item.capVal = v.close`. -/
def setCapVal (c : ChartDataPoint) (x : JVal) : ChartDataPoint := { c with capVal := some x }

/-- `item.sectorVal = v.close`. -/
def setSectorVal (c : ChartDataPoint) (x : JVal) : ChartDataPoint := { c with sectorVal := some x }

/-- The four merge passes of `chartData`, in source order (sorting and
range filtering happen afterwards and do not alter records). -/
def chartDataMerge (dk fmt : JVal → String) (breadthData : List BPoint)
    (vnIndexFixedData capData sectorData : List RawPoint) :
    List (String × ChartDataPoint) :=
  indexPass dk fmt setSectorVal sectorData
    (indexPass dk fmt setCapVal capData
      (indexPass dk fmt setVnIndex vnIndexFixedData
        (breadthPass dk fmt breadthData [])))

/-- Everything except `vnIndex`. -/
def exceptVn (c : ChartDataPoint) :=
  (c.date, c.timestamp, c.formattedDate, c.capVal, c.sectorVal, c.total,
   c.count20, c.count50, c.count200, c.ma20, c.ma50, c.ma200)

/-- Everything except `capVal`. -/
def exceptCap (c : ChartDataPoint) :=
  (c.date, c.timestamp, c.formattedDate, c.vnIndex, c.sectorVal, c.total,
   c.count20, c.count50, c.count200, c.ma20, c.ma50, c.ma200)

/-- Everything except `sectorVal`. -/
def exceptSector (c : ChartDataPoint) :=
  (c.date, c.timestamp, c.formattedDate, c.vnIndex, c.capVal, c.total,
   c.count20, c.count50, c.count200, c.ma20, c.ma50, c.ma200)

theorem mapGet_none_of_not_has {κ ν : Type} [DecidableEq κ] (m : List (κ × ν)) (k : κ)
    (h : mapHas m k = false) : mapGet m k = none := by
  rw [mapGet, find?_eq_none_of_not_has m k h]
  rfl

theorem mapGet_isSome_of_has {κ ν : Type} [DecidableEq κ] (m : List (κ × ν)) (k : κ)
    (h : mapHas m k = true) : ∃ v, mapGet m k = some v := by
  induction m with
  | nil => simp [mapHas] at h
  | cons e t ih =>
    by_cases he : e.1 = k
    · exact ⟨e.2, by simp [mapGet, List.find?_cons, he]⟩
    · have ht : mapHas t k = true := by
        simp only [mapHas, List.any_cons, Bool.or_eq_true, decide_eq_true_eq] at h
        rcases h with h | h
        · exact absurd h he
        · simpa [mapHas] using h
      obtain ⟨v, hv⟩ := ih ht
      refine ⟨v, ?_⟩
      rw [mapGet, List.find?_cons, decide_eq_false he]
      rw [mapGet] at hv
      exact hv

theorem mapHas_of_mapGet {κ ν : Type} [DecidableEq κ] (m : List (κ × ν)) (k : κ) (v : ν)
    (h : mapGet m k = some v) : mapHas m k = true := by
  have hm := mem_of_mapGet m k v h
  simp only [mapHas, List.any_eq_true]
  exact ⟨(k, v), hm, by simp⟩

theorem mapGet_gocMap_ne (fmt : JVal → String) (m : List (String × ChartDataPoint))
    (ts : JVal) (key k : String) (h : key ≠ k) :
    mapGet (gocMap fmt m ts key) k = mapGet m k := by
  rw [gocMap]
  split
  · rfl
  · exact mapGet_mapSet_ne m key k _ (fun hc => h hc.symm)

theorem mapGet_gocMap_self (fmt : JVal → String) (m : List (String × ChartDataPoint))
    (ts : JVal) (key : String) :
    mapGet (gocMap fmt m ts key) key = some (gocItem fmt m ts key) := by
  obtain ⟨r, hr⟩ : ∃ r, mapGet (gocMap fmt m ts key) key = some r := by
    rw [gocMap]
    split
    · next hhas => exact mapGet_isSome_of_has m key hhas
    · exact ⟨_, mapGet_mapSet_self m key _⟩
  rw [hr, gocItem, hr]
  rfl

theorem gocItem_of_has (fmt : JVal → String) (m : List (String × ChartDataPoint))
    (ts : JVal) (key : String) (r : ChartDataPoint) (hr : mapGet m key = some r) :
    gocItem fmt m ts key = r := by
  rw [gocItem, gocMap, if_pos (mapHas_of_mapGet m key r hr), hr]
  rfl

theorem gocItem_of_not_has (fmt : JVal → String) (m : List (String × ChartDataPoint))
    (ts : JVal) (key : String) (h : mapHas m key = false) :
    gocItem fmt m ts key = freshCDP fmt ts key := by
  rw [gocItem, gocMap, if_neg (by simp [h]), mapGet_mapSet_self]
  rfl

theorem mapGet_indexPassStep_ne (dk fmt : JVal → String)
    (setF : ChartDataPoint → JVal → ChartDataPoint)
    (m : List (String × ChartDataPoint)) (v : RawPoint) (k : String)
    (h : dk v.timestamp ≠ k) :
    mapGet (indexPassStep dk fmt setF m v) k = mapGet m k := by
  rw [indexPassStep]
  split
  · rw [mapGet_mapSet_ne _ _ _ _ (fun hc => h hc.symm),
      mapGet_gocMap_ne fmt m v.timestamp _ k h]
  · exact mapGet_gocMap_ne fmt m v.timestamp _ k h

/-- Generic write characterization of an index pass: at any key, the
written field ends as its prior value (absence for a freshly created
record) or as the close of some point of this series with a defined
(non-`null`, non-`undefined`) close keyed to that day. -/
theorem indexPass_writes (dk fmt : JVal → String)
    (setF : ChartDataPoint → JVal → ChartDataPoint)
    (g : ChartDataPoint → Option JVal)
    (hg : ∀ c x, g (setF c x) = some x)
    (hfreshg : ∀ ts key, g (freshCDP fmt ts key) = none)
    (vs : List RawPoint) (m : List (String × ChartDataPoint)) (k : String)
    (rec' : ChartDataPoint)
    (h' : mapGet (indexPass dk fmt setF vs m) k = some rec') :
    g rec' = (match mapGet m k with | some r => g r | none => none) ∨
    ∃ v ∈ vs, dk v.timestamp = k ∧ v.close ≠ JVal.null ∧ v.close ≠ JVal.undef ∧
      g rec' = some v.close := by
  induction vs generalizing m with
  | nil =>
    have h'' : mapGet m k = some rec' := h'
    refine Or.inl ?_
    rw [h'']
  | cons v rest ih =>
    have hstep : indexPass dk fmt setF (v :: rest) m =
        indexPass dk fmt setF rest (indexPassStep dk fmt setF m v) := rfl
    rw [hstep] at h'
    rcases ih (indexPassStep dk fmt setF m v) h' with hleft | ⟨v', hv', hk', hnn, hnu, hgv⟩
    · by_cases hkey : dk v.timestamp = k
      · subst hkey
        by_cases hdef : v.close ≠ JVal.null ∧ v.close ≠ JVal.undef
        · rw [indexPassStep, if_pos hdef, mapGet_mapSet_self] at hleft
          have hleft' : g rec' =
              g (setF (gocItem fmt m v.timestamp (dk v.timestamp)) v.close) := hleft
          rw [hg] at hleft'
          exact Or.inr ⟨v, List.mem_cons_self v rest, rfl, hdef.1, hdef.2, hleft'⟩
        · rw [indexPassStep, if_neg hdef, mapGet_gocMap_self] at hleft
          have hleft' : g rec' = g (gocItem fmt m v.timestamp (dk v.timestamp)) := hleft
          by_cases hhas : mapHas m (dk v.timestamp) = true
          · obtain ⟨r, hr⟩ := mapGet_isSome_of_has m _ hhas
            rw [gocItem_of_has fmt m v.timestamp _ r hr] at hleft'
            refine Or.inl ?_
            rw [hr]
            exact hleft'
          · have hhas' : mapHas m (dk v.timestamp) = false := Bool.not_eq_true _ ▸ hhas
            rw [gocItem_of_not_has fmt m v.timestamp _ hhas', hfreshg] at hleft'
            refine Or.inl ?_
            rw [mapGet_none_of_not_has m _ hhas']
            exact hleft'
      · rw [mapGet_indexPassStep_ne dk fmt setF m v k hkey] at hleft
        exact Or.inl hleft
    · exact Or.inr ⟨v', List.mem_cons_of_mem v hv', hk', hnn, hnu, hgv⟩

/-- Generic frame property of an index pass: any observation `f` that
the series' setter cannot change is preserved on every day the map
already had, and the day's record is never removed. -/
theorem indexPass_frame {β : Type} (dk fmt : JVal → String)
    (setF : ChartDataPoint → JVal → ChartDataPoint)
    (f : ChartDataPoint → β)
    (hf : ∀ c x, f (setF c x) = f c)
    (vs : List RawPoint) (m : List (String × ChartDataPoint)) (k : String)
    (rec : ChartDataPoint) (hrec : mapGet m k = some rec) :
    ∃ rec', mapGet (indexPass dk fmt setF vs m) k = some rec' ∧ f rec' = f rec := by
  induction vs generalizing m rec with
  | nil => exact ⟨rec, hrec, rfl⟩
  | cons v rest ih =>
    have hstep : indexPass dk fmt setF (v :: rest) m =
        indexPass dk fmt setF rest (indexPassStep dk fmt setF m v) := rfl
    rw [hstep]
    by_cases hkey : dk v.timestamp = k
    · subst hkey
      by_cases hdef : v.close ≠ JVal.null ∧ v.close ≠ JVal.undef
      · have hget : mapGet (indexPassStep dk fmt setF m v) (dk v.timestamp) =
            some (setF rec v.close) := by
          rw [indexPassStep, if_pos hdef,
            gocItem_of_has fmt m v.timestamp _ rec hrec, mapGet_mapSet_self]
        obtain ⟨rec', hrec', hfr⟩ := ih (indexPassStep dk fmt setF m v) (setF rec v.close) hget
        exact ⟨rec', hrec', by rw [hfr, hf]⟩
      · have hget : mapGet (indexPassStep dk fmt setF m v) (dk v.timestamp) = some rec := by
          rw [indexPassStep, if_neg hdef, mapGet_gocMap_self,
            gocItem_of_has fmt m v.timestamp _ rec hrec]
        obtain ⟨rec', hrec', hfr⟩ := ih (indexPassStep dk fmt setF m v) rec hget
        exact ⟨rec', hrec', hfr⟩
    · have hget : mapGet (indexPassStep dk fmt setF m v) k = some rec := by
        rw [mapGet_indexPassStep_ne dk fmt setF m v k hkey, hrec]
      exact ih (indexPassStep dk fmt setF m v) rec hget

/-- C5.  Each of the three index series (`vnIndex`, `capVal`,
`sectorVal`) writes its field of a day's record only when that
source's close for the day is neither `undefined` nor `null` — the
field's final value is its prior value unless some point of that
series with a defined close (including `0`) is keyed to the day, in
which case it is exactly such a close — and each pass leaves every
other field of every day the map already had unchanged (and never
removes a day's record). -/
theorem c5_index_merge_defined_writes_frame :
    (∀ (dk fmt : JVal → String) (vs : List RawPoint)
        (m : List (String × ChartDataPoint)) (k : String) (rec' : ChartDataPoint),
      mapGet (indexPass dk fmt setVnIndex vs m) k = some rec' →
      (rec'.vnIndex = (match mapGet m k with | some r => r.vnIndex | none => none) ∨
        ∃ v ∈ vs, dk v.timestamp = k ∧ v.close ≠ JVal.null ∧ v.close ≠ JVal.undef ∧
          rec'.vnIndex = some v.close)) ∧
    (∀ (dk fmt : JVal → String) (vs : List RawPoint)
        (m : List (String × ChartDataPoint)) (k : String) (rec : ChartDataPoint),
      mapGet m k = some rec →
      ∃ rec', mapGet (indexPass dk fmt setVnIndex vs m) k = some rec' ∧
        exceptVn rec' = exceptVn rec) ∧
    (∀ (dk fmt : JVal → String) (vs : List RawPoint)
        (m : List (String × ChartDataPoint)) (k : String) (rec' : ChartDataPoint),
      mapGet (indexPass dk fmt setCapVal vs m) k = some rec' →
      (rec'.capVal = (match mapGet m k with | some r => r.capVal | none => none) ∨
        ∃ v ∈ vs, dk v.timestamp = k ∧ v.close ≠ JVal.null ∧ v.close ≠ JVal.undef ∧
          rec'.capVal = some v.close)) ∧
    (∀ (dk fmt : JVal → String) (vs : List RawPoint)
        (m : List (String × ChartDataPoint)) (k : String) (rec : ChartDataPoint),
      mapGet m k = some rec →
      ∃ rec', mapGet (indexPass dk fmt setCapVal vs m) k = some rec' ∧
        exceptCap rec' = exceptCap rec) ∧
    (∀ (dk fmt : JVal → String) (vs : List RawPoint)
        (m : List (String × ChartDataPoint)) (k : String) (rec' : ChartDataPoint),
      mapGet (indexPass dk fmt setSectorVal vs m) k = some rec' →
      (rec'.sectorVal = (match mapGet m k with | some r => r.sectorVal | none => none) ∨
        ∃ v ∈ vs, dk v.timestamp = k ∧ v.close ≠ JVal.null ∧ v.close ≠ JVal.undef ∧
          rec'.sectorVal = some v.close)) ∧
    (∀ (dk fmt : JVal → String) (vs : List RawPoint)
        (m : List (String × ChartDataPoint)) (k : String) (rec : ChartDataPoint),
      mapGet m k = some rec →
      ∃ rec', mapGet (indexPass dk fmt setSectorVal vs m) k = some rec' ∧
        exceptSector rec' = exceptSector rec) :=
  ⟨fun dk fmt vs m k rec' h' =>
    indexPass_writes dk fmt setVnIndex (fun c => c.vnIndex)
      (fun _ _ => rfl) (fun _ _ => rfl) vs m k rec' h',
   fun dk fmt vs m k rec hrec =>
    indexPass_frame dk fmt setVnIndex exceptVn (fun _ _ => rfl) vs m k rec hrec,
   fun dk fmt vs m k rec' h' =>
    indexPass_writes dk fmt setCapVal (fun c => c.capVal)
      (fun _ _ => rfl) (fun _ _ => rfl) vs m k rec' h',
   fun dk fmt vs m k rec hrec =>
    indexPass_frame dk fmt setCapVal exceptCap (fun _ _ => rfl) vs m k rec hrec,
   fun dk fmt vs m k rec' h' =>
    indexPass_writes dk fmt setSectorVal (fun c => c.sectorVal)
      (fun _ _ => rfl) (fun _ _ => rfl) vs m k rec' h',
   fun dk fmt vs m k rec hrec =>
    indexPass_frame dk fmt setSectorVal exceptSector (fun _ _ => rfl) vs m k rec hrec⟩

/-- The concrete index point of the C5 witness: a defined close of
`0`. -/
def c5v : RawPoint := ⟨.num 1, .num 0⟩

/-- The record the witness pass produces at key `"d"`: `vnIndex`
written as `0`. -/
def c5recW : ChartDataPoint := setVnIndex (freshCDP (fun _ => "") (.num 1) "d") (.num 0)

/-- A pre-existing record at another day, carrying a `capVal`. -/
def c5recE : ChartDataPoint :=
  { freshCDP (fun _ => "") (.num 2) "e" with capVal := some (.num 7) }

/-- Witness for `c5_index_merge_defined_writes_frame`: the vnIndex
pass over a single point with close `0` writes `0` at its day, and
leaves the other day's fields untouched. -/
theorem c5_witness :
    (c5recW.vnIndex =
        (match mapGet ([] : List (String × ChartDataPoint)) "d" with
         | some r => r.vnIndex
         | none => none) ∨
      ∃ v ∈ [c5v], (fun _ : JVal => "d") v.timestamp = "d" ∧ v.close ≠ JVal.null ∧
        v.close ≠ JVal.undef ∧ c5recW.vnIndex = some v.close) ∧
    (∃ rec', mapGet (indexPass (fun _ => "d") (fun _ => "") setVnIndex [c5v]
        [("e", c5recE)]) "e" = some rec' ∧ exceptVn rec' = exceptVn c5recE) :=
  ⟨c5_index_merge_defined_writes_frame.1 (fun _ => "d") (fun _ => "") [c5v] [] "d"
      c5recW rfl,
   c5_index_merge_defined_writes_frame.2.1 (fun _ => "d") (fun _ => "") [c5v]
      [("e", c5recE)] "e" c5recE rfl⟩

/-! ## C6: `getCacheKey` — sorted-key JSON fingerprint

`getCacheKey(prefix, params)` returns
`` `${CACHE_PREFIX}${prefix}_${JSON.stringify(params, Object.keys(params).sort())}` ``.
With an array replacer, `JSON.stringify` serializes exactly the listed
keys in the replacer's (sorted) order, reading each value from the
object.  A parameter object is modelled as an association list with
string keys; values are the strings and numbers the repository passes
(`filterIdentity` holds exchange floors, numeric bounds and the
endpoint URL), numbers modelled as integers (`PVal`).  String escaping
models the `"` and `\` escapes (the only ones needed on this value
domain); `Object.keys(...).sort()` is code-unit lexicographic, which
coincides with `String`'s order on these keys. -/

/-- A parameter value: a string or an (integer) number. -/
inductive PVal where
  | pstr (s : String)
  | pnum (z : ℤ)
deriving DecidableEq, Repr

/-- The ten digit characters. -/
def digitToChar : ℕ → Char
  | 0 => '0'
  | 1 => '1'
  | 2 => '2'
  | 3 => '3'
  | 4 => '4'
  | 5 => '5'
  | 6 => '6'
  | 7 => '7'
  | 8 => '8'
  | 9 => '9'
  | _ => 'x'

/-- Digit value of a digit character (0 otherwise). -/
def dval (c : Char) : ℕ :=
  if c = '0' then 0 else if c = '1' then 1 else if c = '2' then 2
  else if c = '3' then 3 else if c = '4' then 4 else if c = '5' then 5
  else if c = '6' then 6 else if c = '7' then 7 else if c = '8' then 8
  else if c = '9' then 9 else 0

/-- Decimal rendering of a natural number, most significant digit
first. -/
def natToChars (n : ℕ) : List Char :=
  if n = 0 then ['0'] else ((Nat.digits 10 n).reverse).map digitToChar

/-- Decimal rendering of an integer. -/
def intToChars (z : ℤ) : List Char :=
  if z < 0 then '-' :: natToChars z.natAbs else natToChars z.natAbs

/-- Reconstruct the natural number from its decimal rendering. -/
def charsToNat (cs : List Char) : ℕ :=
  cs.foldl (fun a c => 10 * a + dval c) 0

/-- JSON string escaping for the quote and backslash characters. -/
def escChar (c : Char) : List Char :=
  if c = '"' ∨ c = '\\' then ['\\', c] else [c]

/-- Escape a character list. -/
def escStr (s : List Char) : List Char := s.flatMap escChar

/-- A JSON string literal. -/
def strLit (s : List Char) : List Char := '"' :: (escStr s ++ ['"'])

/-- Serialization of one value. -/
def pvalChars : PVal → List Char
  | .pstr s => strLit s.data
  | .pnum z => intToChars z

/-- Serialization of one `"key":value` entry. -/
def entryChars (e : String × PVal) : List Char :=
  strLit e.1.data ++ ':' :: pvalChars e.2

/-- Comma-separated entries. -/
def entriesChars : List (String × PVal) → List Char
  | [] => []
  | [e] => entryChars e
  | e :: rest => entryChars e ++ ',' :: entriesChars rest

/-- `Object.keys(params).sort()`. -/
def sortedKeys (params : List (String × PVal)) : List String :=
  List.insertionSort (· ≤ ·) (params.map Prod.fst)

/-- The entries `JSON.stringify(params, sortedKeys)` serializes: the
sorted keys, each with the value read from the object (every sorted
key is a key of the object, so the default is never used). -/
def sortedEntries (params : List (String × PVal)) : List (String × PVal) :=
  (sortedKeys params).map (fun k => (k, (List.lookup k params).getD (.pnum 0)))

/-- `JSON.stringify(params, Object.keys(params).sort())`. -/
def jsonStringify (params : List (String × PVal)) : List Char :=
  '{' :: (entriesChars (sortedEntries params) ++ ['}'])

/-- `CACHE_PREFIX = 'MBA_CACHE_V5_'`. -/
def CACHE_PREFIX : String := "MBA_CACHE_V5_"

/-- `getCacheKey`. -/
def getCacheKey (opName : String) (params : List (String × PVal)) : String :=
  CACHE_PREFIX ++ opName ++ "_" ++ String.mk (jsonStringify params)

/-- Scan a JSON string body up to its closing quote, undoing the
escapes. -/
def scanStr : List Char → Option (List Char × List Char)
  | [] => none
  | c :: r =>
    if c = '\\' then
      match r with
      | [] => none
      | c2 :: r2 => (scanStr r2).map (fun p => (c2 :: p.1, p.2))
    else if c = '"' then some ([], r)
    else (scanStr r).map (fun p => (c :: p.1, p.2))

/-- A character that can appear in a serialized number. -/
def numChar (c : Char) : Prop := c.isDigit = true ∨ c = '-'

instance (c : Char) : Decidable (numChar c) := by
  unfold numChar
  infer_instance

/-- The list starts with an entry separator or the object closer. -/
def sepHead : List Char → Prop
  | [] => False
  | c :: _ => c = ',' ∨ c = '}'

theorem dval_digitToChar (d : ℕ) (h : d < 10) : dval (digitToChar d) = d := by
  interval_cases d <;> rfl

theorem digitToChar_isDigit (d : ℕ) (h : d < 10) : (digitToChar d).isDigit = true := by
  interval_cases d <;> rfl

theorem natToChars_ne_nil (n : ℕ) : natToChars n ≠ [] := by
  rw [natToChars]
  split
  · simp
  · next h =>
    have hd : Nat.digits 10 n ≠ [] := Nat.digits_ne_nil_iff_ne_zero.mpr h
    simp only [ne_eq, List.map_eq_nil_iff, List.reverse_eq_nil_iff]
    exact hd

theorem mem_natToChars_isDigit (n : ℕ) (c : Char) (hc : c ∈ natToChars n) :
    c.isDigit = true := by
  rw [natToChars] at hc
  split at hc
  · rw [List.mem_singleton.mp hc]
    rfl
  · obtain ⟨d, hd, rfl⟩ := List.mem_map.mp hc
    exact digitToChar_isDigit d
      (Nat.digits_lt_base (by norm_num) (List.mem_reverse.mp hd))

theorem charsToNat_natToChars (n : ℕ) : charsToNat (natToChars n) = n := by
  rw [natToChars]
  split
  · next h => rw [h]; rfl
  · rw [charsToNat, List.foldl_map, List.foldl_reverse]
    have key : ∀ L : List ℕ, (∀ d ∈ L, d < 10) →
        List.foldr (fun d a => 10 * a + dval (digitToChar d)) 0 L = Nat.ofDigits 10 L := by
      intro L
      induction L with
      | nil => intro; rfl
      | cons d t ih =>
        intro hL
        rw [List.foldr_cons, ih (fun d' hd' => hL d' (List.mem_cons_of_mem d hd')),
          Nat.ofDigits_cons, dval_digitToChar d (hL d (List.mem_cons_self d t))]
        omega
    rw [key _ (fun d hd => Nat.digits_lt_base (by norm_num) hd)]
    exact Nat.ofDigits_digits 10 n

theorem natToChars_inj (m n : ℕ) (h : natToChars m = natToChars n) : m = n := by
  have hm := charsToNat_natToChars m
  rw [h, charsToNat_natToChars n] at hm
  exact hm.symm

theorem intToChars_ne_nil (z : ℤ) : intToChars z ≠ [] := by
  rw [intToChars]
  split
  · simp
  · exact natToChars_ne_nil _

theorem mem_intToChars_numChar (z : ℤ) (c : Char) (hc : c ∈ intToChars z) :
    numChar c := by
  rw [intToChars] at hc
  split at hc
  · rcases List.mem_cons.mp hc with rfl | h
    · exact Or.inr rfl
    · exact Or.inl (mem_natToChars_isDigit _ _ h)
  · exact Or.inl (mem_natToChars_isDigit _ _ hc)

theorem intToChars_inj (a b : ℤ) (h : intToChars a = intToChars b) : a = b := by
  rw [intToChars, intToChars] at h
  split at h <;> split at h
  · injection h with _ h'
    have := natToChars_inj _ _ h'
    omega
  · next h1 h2 =>
    have hm : '-' ∈ natToChars b.natAbs := h ▸ List.mem_cons_self '-' _
    exact absurd (mem_natToChars_isDigit _ _ hm) (by decide)
  · next h1 h2 =>
    have hm : '-' ∈ natToChars a.natAbs := h.symm ▸ List.mem_cons_self '-' _
    exact absurd (mem_natToChars_isDigit _ _ hm) (by decide)
  · have := natToChars_inj _ _ h
    omega

theorem scanStr_round (s r : List Char) :
    scanStr (escStr s ++ '"' :: r) = some (s, r) := by
  induction s with
  | nil =>
    show scanStr ('"' :: r) = some ([], r)
    rw [scanStr.eq_def]
    simp
  | cons c cs ih =>
    by_cases hc : c = '"' ∨ c = '\\'
    · have hesc : escStr (c :: cs) = '\\' :: c :: escStr cs := by
        simp [escStr, escChar, hc]
      rw [hesc]
      show scanStr ('\\' :: (c :: (escStr cs ++ '"' :: r))) = _
      rw [scanStr.eq_def]
      simp [ih]
    · have h1 : ¬ c = '"' := fun hx => hc (Or.inl hx)
      have h2 : ¬ c = '\\' := fun hx => hc (Or.inr hx)
      have hesc : escStr (c :: cs) = c :: escStr cs := by
        simp [escStr, escChar, h1, h2]
      rw [hesc]
      show scanStr (c :: (escStr cs ++ '"' :: r)) = _
      rw [scanStr.eq_def]
      simp [h1, h2, ih]

theorem num_append_inj (A : List Char) : ∀ (B r₁ r₂ : List Char),
    (∀ c ∈ A, numChar c) → (∀ c ∈ B, numChar c) → sepHead r₁ → sepHead r₂ →
    A ++ r₁ = B ++ r₂ → A = B ∧ r₁ = r₂ := by
  induction A with
  | nil =>
    intro B r₁ r₂ hA hB h₁ h₂ heq
    cases B with
    | nil => exact ⟨rfl, by simpa using heq⟩
    | cons b bt =>
      rw [List.nil_append] at heq
      have hb := hB b (List.mem_cons_self b bt)
      rw [heq] at h₁
      rcases h₁ with h | h <;> rw [h] at hb <;> exact absurd hb (by decide)
  | cons a at' ih =>
    intro B r₁ r₂ hA hB h₁ h₂ heq
    cases B with
    | nil =>
      rw [List.nil_append] at heq
      have ha := hA a (List.mem_cons_self a at')
      rw [← heq] at h₂
      rcases h₂ with h | h <;> rw [h] at ha <;> exact absurd ha (by decide)
    | cons b bt =>
      injection heq with hab heq'
      subst hab
      obtain ⟨he, hr⟩ := ih bt r₁ r₂
        (fun c hc => hA c (List.mem_cons_of_mem a hc))
        (fun c hc => hB c (List.mem_cons_of_mem a hc)) h₁ h₂ heq'
      exact ⟨by rw [he], hr⟩

theorem string_eq_of_data (s t : String) (h : s.data = t.data) : s = t := by
  cases s
  cases t
  exact congrArg String.mk h

theorem pval_unambig (v v' : PVal) (r r' : List Char)
    (h₁ : sepHead r) (h₂ : sepHead r')
    (heq : pvalChars v ++ r = pvalChars v' ++ r') : v = v' ∧ r = r' := by
  cases v with
  | pstr s =>
    cases v' with
    | pstr s' =>
      simp only [pvalChars, strLit, List.cons_append, List.append_assoc,
        List.singleton_append, List.nil_append] at heq
      injection heq with _ h'
      have hs := scanStr_round s.data r
      rw [h', scanStr_round s'.data r'] at hs
      injection hs with hp
      have hd : s'.data = s.data := congrArg Prod.fst hp
      have hr : r' = r := congrArg Prod.snd hp
      exact ⟨by rw [string_eq_of_data s s' hd.symm], hr.symm⟩
    | pnum z =>
      simp only [pvalChars, strLit, List.cons_append] at heq
      obtain ⟨c0, cs0, hc0⟩ : ∃ c0 cs0, intToChars z = c0 :: cs0 := by
        cases hi : intToChars z with
        | nil => exact absurd hi (intToChars_ne_nil z)
        | cons x xs => exact ⟨x, xs, rfl⟩
      rw [hc0] at heq
      injection heq with h0 _
      have hnc := mem_intToChars_numChar z c0 (hc0 ▸ List.mem_cons_self _ _)
      rw [← h0] at hnc
      exact absurd hnc (by decide)
  | pnum z =>
    cases v' with
    | pstr s' =>
      simp only [pvalChars, strLit, List.cons_append] at heq
      obtain ⟨c0, cs0, hc0⟩ : ∃ c0 cs0, intToChars z = c0 :: cs0 := by
        cases hi : intToChars z with
        | nil => exact absurd hi (intToChars_ne_nil z)
        | cons x xs => exact ⟨x, xs, rfl⟩
      rw [hc0] at heq
      injection heq with h0 _
      have hnc := mem_intToChars_numChar z c0 (hc0 ▸ List.mem_cons_self _ _)
      rw [h0] at hnc
      exact absurd hnc (by decide)
    | pnum z' =>
      obtain ⟨he, hr⟩ := num_append_inj (intToChars z) (intToChars z') r r'
        (mem_intToChars_numChar z) (mem_intToChars_numChar z') h₁ h₂ heq
      exact ⟨by rw [intToChars_inj z z' he], hr⟩

theorem entry_unambig (k : String) (v v' : PVal) (r r' : List Char)
    (h₁ : sepHead r) (h₂ : sepHead r')
    (heq : entryChars (k, v) ++ r = entryChars (k, v') ++ r') : v = v' ∧ r = r' := by
  simp only [entryChars, List.append_assoc, List.cons_append] at heq
  have h' := List.append_cancel_left heq
  injection h' with _ h''
  exact pval_unambig v v' r r' h₁ h₂ h''

theorem entries_inj (ks : List String) (f g : String → PVal)
    (heq : entriesChars (ks.map fun k => (k, f k)) ++ ['}'] =
           entriesChars (ks.map fun k => (k, g k)) ++ ['}']) :
    ∀ k ∈ ks, f k = g k := by
  induction ks with
  | nil => intro k hk; cases hk
  | cons k rest ih =>
    cases rest with
    | nil =>
      simp only [List.map_cons, List.map_nil, entriesChars] at heq
      obtain ⟨hv, -⟩ := entry_unambig k (f k) (g k) ['}'] ['}']
        (Or.inr rfl) (Or.inr rfl) heq
      intro k' hk'
      rw [List.mem_singleton.mp hk']
      exact hv
    | cons k2 rest2 =>
      simp only [List.map_cons, entriesChars, List.append_assoc, List.cons_append] at heq
      obtain ⟨hv, hr⟩ := entry_unambig k (f k) (g k) _ _
        (by exact Or.inl rfl) (by exact Or.inl rfl) heq
      injection hr with _ hr'
      intro k' hk'
      rcases List.mem_cons.mp hk' with rfl | hk''
      · exact hv
      · refine ih ?_ k' hk''
        simpa only [List.map_cons, entriesChars, List.append_assoc,
          List.cons_append] using hr'

theorem lookup_mem_keys (k : String) (p : List (String × PVal)) (v : PVal)
    (h : List.lookup k p = some v) : k ∈ p.map Prod.fst := by
  induction p with
  | nil => cases h
  | cons e t ih =>
    obtain ⟨ek, ev⟩ := e
    by_cases hk : k = ek
    · rw [hk]
      exact List.mem_cons_self _ _
    · have hbeq : (k == ek) = false := beq_eq_false_iff_ne.mpr hk
      simp only [List.lookup_cons, hbeq] at h
      exact List.mem_cons_of_mem _ (ih h)

theorem perm_lookup_eq (p p' : List (String × PVal)) (hperm : p.Perm p') (k : String) :
    (p.map Prod.fst).Nodup → List.lookup k p = List.lookup k p' := by
  induction hperm with
  | nil => intro; rfl
  | cons a h ih =>
    intro hnd
    obtain ⟨ak, av⟩ := a
    cases hbeq : (k == ak) with
    | true => simp only [List.lookup_cons, hbeq]
    | false =>
      simp only [List.lookup_cons, hbeq]
      simp only [List.map_cons, List.nodup_cons] at hnd
      exact ih hnd.2
  | swap a b t =>
    intro hnd
    obtain ⟨ak, av⟩ := a
    obtain ⟨bk, bv⟩ := b
    have hne : bk ≠ ak := by
      simp only [List.map_cons, List.nodup_cons, List.mem_cons] at hnd
      exact fun hc => hnd.1 (Or.inl hc)
    by_cases h1 : k = bk
    · have hb : (k == bk) = true := beq_iff_eq.mpr h1
      have ha : (k == ak) = false :=
        beq_eq_false_iff_ne.mpr (fun hc => hne (h1.symm.trans hc))
      simp only [List.lookup_cons, hb, ha]
    · have hb : (k == bk) = false := beq_eq_false_iff_ne.mpr h1
      by_cases h2 : k = ak
      · have ha : (k == ak) = true := beq_iff_eq.mpr h2
        simp only [List.lookup_cons, hb, ha]
      · have ha : (k == ak) = false := beq_eq_false_iff_ne.mpr h2
        simp only [List.lookup_cons, hb, ha]
  | trans h1 h2 ih1 ih2 =>
    intro hnd
    rw [ih1 hnd, ih2 (((h1.map Prod.fst).nodup_iff).mp hnd)]

/-- C6.  `getCacheKey` is invariant under permutation of the
parameter object's key order (keys are serialized in sorted order with
values read from the object), and — for two parameter objects with the
same key set — any difference in some key's value changes the
resulting string. -/
theorem c6_getCacheKey_fingerprint :
    (∀ (opName : String) (p p' : List (String × PVal)),
      p.Perm p' → (p.map Prod.fst).Nodup →
      getCacheKey opName p = getCacheKey opName p') ∧
    (∀ (opName : String) (p p' : List (String × PVal)) (k : String) (v v' : PVal),
      (p.map Prod.fst).Perm (p'.map Prod.fst) →
      List.lookup k p = some v → List.lookup k p' = some v' → v ≠ v' →
      getCacheKey opName p ≠ getCacheKey opName p') := by
  have hkeyseq : ∀ (p p' : List (String × PVal)),
      (p.map Prod.fst).Perm (p'.map Prod.fst) → sortedKeys p = sortedKeys p' := by
    intro p p' hp
    exact List.eq_of_perm_of_sorted
      (((List.perm_insertionSort _ _).trans hp).trans (List.perm_insertionSort _ _).symm)
      (List.sorted_insertionSort _ _) (List.sorted_insertionSort _ _)
  constructor
  · intro opName p p' hperm hnd
    have hk := hkeyseq p p' (hperm.map Prod.fst)
    have hfun : (fun k0 => (k0, (List.lookup k0 p).getD (PVal.pnum 0))) =
        (fun k0 => (k0, (List.lookup k0 p').getD (PVal.pnum 0))) := by
      funext k0
      rw [perm_lookup_eq p p' hperm k0 hnd]
    have hse : sortedEntries p = sortedEntries p' := by
      rw [sortedEntries, sortedEntries, hk, hfun]
    rw [getCacheKey, getCacheKey, jsonStringify, jsonStringify, hse]
  · intro opName p p' k v v' hkp hv hv' hne heqk
    have hk := hkeyseq p p' hkp
    have hdata := congrArg String.data heqk
    rw [getCacheKey, getCacheKey] at hdata
    simp only [String.data_append] at hdata
    have hJ : jsonStringify p = jsonStringify p' := List.append_cancel_left hdata
    rw [jsonStringify, jsonStringify] at hJ
    injection hJ with _ hJ'
    have hkmem : k ∈ sortedKeys p :=
      ((List.perm_insertionSort (· ≤ ·) (p.map Prod.fst)).mem_iff).mpr
        (lookup_mem_keys k p v hv)
    have hentries : entriesChars ((sortedKeys p).map fun k0 =>
          (k0, (List.lookup k0 p).getD (PVal.pnum 0))) ++ ['}'] =
        entriesChars ((sortedKeys p).map fun k0 =>
          (k0, (List.lookup k0 p').getD (PVal.pnum 0))) ++ ['}'] := by
      have h2 : sortedEntries p' = (sortedKeys p).map fun k0 =>
          (k0, (List.lookup k0 p').getD (PVal.pnum 0)) := by
        rw [sortedEntries, hk]
      have h1 : sortedEntries p = (sortedKeys p).map fun k0 =>
          (k0, (List.lookup k0 p).getD (PVal.pnum 0)) := rfl
      rw [← h1, ← h2]
      exact hJ'
    have hvv := entries_inj (sortedKeys p) _ _ hentries k hkmem
    rw [hv, hv'] at hvv
    exact hne (by simpa using hvv)

/-- The witness parameter objects: `c6p` and `c6p2` hold the same
pairs in different insertion order; `c6q` differs from `c6p` in one
value. -/
def c6p : List (String × PVal) :=
  [("floor", .pstr "hnx,hose,upcom"), ("min_ad", .pnum 2)]

/-- `c6p` with the keys inserted in the other order. -/
def c6p2 : List (String × PVal) :=
  [("min_ad", .pnum 2), ("floor", .pstr "hnx,hose,upcom")]

/-- `c6p` with a different `min_ad` value. -/
def c6q : List (String × PVal) :=
  [("floor", .pstr "hnx,hose,upcom"), ("min_ad", .pnum 3)]

/-- Witness for `c6_getCacheKey_fingerprint` at concrete parameter
objects. -/
theorem c6_witness :
    getCacheKey "BREADTH" c6p = getCacheKey "BREADTH" c6p2 ∧
    getCacheKey "BREADTH" c6p ≠ getCacheKey "BREADTH" c6q :=
  ⟨c6_getCacheKey_fingerprint.1 "BREADTH" c6p c6p2
      (by unfold c6p c6p2; exact List.Perm.swap _ _ _)
      (by decide),
   c6_getCacheKey_fingerprint.2 "BREADTH" c6p c6q "min_ad" (.pnum 2) (.pnum 3)
      (List.Perm.refl _) (by decide) (by decide) (by decide)⟩

end MBA
